import Mathlib

/-!
Verification of the code-lod staleness cache and generation pipeline.

The definitions below are a shallow embedding of the Python modules
src/code_lod/hashing.py, src/code_lod/db.py and src/code_lod/pipeline.py:
pure functions become Lean functions on List Char / String, the SQLite
table of db.py becomes a list of records threaded through the operations,
and the concurrent pipeline of pipeline.py becomes explicit state passing
over a work queue (one legal sequentialization: all scans, then the worker
loop) plus a trace semantics for the per-file completion tracker.
-/

namespace CodeLod

/-! ## Fingerprinting (hashing.py) -/

/-- Whitespace characters removed by the Python str.rstrip call (ASCII set). -/
def isPyWs (c : Char) : Bool :=
  c = ' ' || c = '\t' || c = '\n' || c = '\r' || c = '\x0b' || c = '\x0c'

/-- Python source.split with separator a newline: splits a character list
into lines; the empty input gives one empty line, mirroring Python. -/
def splitNL : List Char → List (List Char)
  | [] => [[]]
  | c :: cs =>
    if c = '\n' then [] :: splitNL cs
    else
      match splitNL cs with
      | [] => [[c]]
      | l :: ls => (c :: l) :: ls

/-- Character scan of normalize_source: walks a line tracking the
in-string state (a quote toggles it unless the previous raw character is a
backslash) and truncates at the first hash character seen outside a string. -/
def stripCommentAux : List Char → Bool → Option Char → Option Char → List Char
  | [], _, _, _ => []
  | c :: rest, inString, quote, prev =>
    let isQuote := (c == '"' || c == '\'') && prev != some '\\'
    let st :=
      if isQuote then
        if !inString then (true, some c)
        else if some c == quote then (false, none)
        else (inString, quote)
      else (inString, quote)
    if !st.1 && c == '#' then []
    else c :: stripCommentAux rest st.1 st.2 (some c)

/-- Comment removal for one line, starting outside any string. -/
def stripComment (line : List Char) : List Char :=
  stripCommentAux line false none none

/-- The state of the comment scanner after a whole line: none when a
comment start was found (the line is truncated there and anything
appended later is dropped too), otherwise the final in-string flag and
pending quote character. The state transitions mirror stripCommentAux
character by character. -/
def commentScanState : List Char → Bool → Option Char → Option Char →
    Option (Bool × Option Char)
  | [], inString, quote, _ => some (inString, quote)
  | c :: rest, inString, quote, prev =>
    let isQuote := (c == '"' || c == '\'') && prev != some '\\'
    let st :=
      if isQuote then
        if !inString then (true, some c)
        else if some c == quote then (false, none)
        else (inString, quote)
      else (inString, quote)
    if !st.1 && c == '#' then none
    else commentScanState rest st.1 st.2 (some c)

/-- Python str.rstrip: drop trailing whitespace characters. -/
def rstrip (l : List Char) : List Char :=
  (l.reverse.dropWhile isPyWs).reverse

/-- Per-line cleaning step of normalize_source: strip the comment, then
strip trailing whitespace. -/
def processLine (l : List Char) : List Char :=
  rstrip (stripComment l)

/-- The cleaned-lines loop of normalize_source: keep a nonempty line; keep
an empty line only when the previously kept line is nonempty (the flag
records that state), so runs of blank lines collapse to a single blank and
leading blanks are dropped. -/
def collapseBlanks : Bool → List (List Char) → List (List Char)
  | _, [] => []
  | lastNonEmpty, l :: ls =>
    if l.isEmpty then
      if lastNonEmpty then [] :: collapseBlanks false ls
      else collapseBlanks false ls
    else l :: collapseBlanks true ls

/-- The line list produced by normalize_source before joining. -/
def normalizeLines (s : List Char) : List (List Char) :=
  collapseBlanks false ((splitNL s).map processLine)

/-- Python re.sub collapsing maximal runs of space characters to a single
space; the flag records whether the previous character was a space. -/
def collapseSpacesAux : Bool → List Char → List Char
  | _, [] => []
  | prevSpace, c :: rest =>
    if c = ' ' then
      if prevSpace then collapseSpacesAux true rest
      else ' ' :: collapseSpacesAux true rest
    else c :: collapseSpacesAux false rest

/-- Collapse every run of spaces in the text to a single space. -/
def collapseSpaces (l : List Char) : List Char :=
  collapseSpacesAux false l

/-- Two character lists that differ only in the lengths of space runs:
the characters outside spaces are equal and in the same order, and every
space run stays of positive length on both sides. This is the class of
edits (re-indentation between positive widths included) that the
space-collapsing step of the normalization erases. -/
inductive SpaceRunRel : List Char → List Char → Prop where
  | nil : SpaceRunRel [] []
  | cons (c : Char) (hc : c ≠ ' ') {a b : List Char} :
      SpaceRunRel a b → SpaceRunRel (c :: a) (c :: b)
  | run (m n : Nat) (hm : 1 ≤ m) (hn : 1 ≤ n) {a b : List Char} :
      SpaceRunRel a b →
      SpaceRunRel (List.replicate m ' ' ++ a) (List.replicate n ' ' ++ b)

/-- Join lines with newline separators, mirroring the Python join call. -/
def joinNL : List (List Char) → List Char
  | [] => []
  | [l] => l
  | l :: ls => l ++ '\n' :: joinNL ls

/-- Embedding of normalize_source from hashing.py: split into lines, strip
comments and trailing whitespace per line, collapse blank runs, join, and
collapse space runs. -/
def normalizeSource (s : List Char) : List Char :=
  collapseSpaces (joinNL (normalizeLines s))

/-! ### SHA-256 over natural numbers (bytes are Nat below 256, words are
Nat below 2 to the 32), needed because compute_ast_hash returns the hex
digest of the normalized source. -/

/-- Modulus for 32-bit words. -/
def M32 : Nat := 4294967296

/-- Right rotation of a 32-bit word. -/
def rotr32 (x n : Nat) : Nat :=
  ((x >>> n) ||| (x <<< (32 - n))) % M32

/-- Big sigma 0 function of SHA-256. -/
def bsig0 (x : Nat) : Nat := rotr32 x 2 ^^^ rotr32 x 13 ^^^ rotr32 x 22

/-- Big sigma 1 function of SHA-256. -/
def bsig1 (x : Nat) : Nat := rotr32 x 6 ^^^ rotr32 x 11 ^^^ rotr32 x 25

/-- Small sigma 0 function of SHA-256. -/
def ssig0 (x : Nat) : Nat := rotr32 x 7 ^^^ rotr32 x 18 ^^^ (x >>> 3)

/-- Small sigma 1 function of SHA-256. -/
def ssig1 (x : Nat) : Nat := rotr32 x 17 ^^^ rotr32 x 19 ^^^ (x >>> 10)

/-- Choose function of SHA-256; complement is xor against the all-ones word. -/
def chF (x y z : Nat) : Nat := (x &&& y) ^^^ ((x ^^^ 4294967295) &&& z)

/-- Majority function of SHA-256. -/
def majF (x y z : Nat) : Nat := (x &&& y) ^^^ (x &&& z) ^^^ (y &&& z)

/-- Round constants of SHA-256. -/
def K256 : List Nat :=
  [1116352408, 1899447441, 3049323471, 3921009573, 961987163,
   1508970993, 2453635748, 2870763221, 3624381080, 310598401,
   607225278, 1426881987, 1925078388, 2162078206, 2614888103,
   3248222580, 3835390401, 4022224774, 264347078, 604807628,
   770255983, 1249150122, 1555081692, 1996064986, 2554220882,
   2821834349, 2952996808, 3210313671, 3336571891, 3584528711,
   113926993, 338241895, 666307205, 773529912, 1294757372,
   1396182291, 1695183700, 1986661051, 2177026350, 2456956037,
   2730485921, 2820302411, 3259730800, 3345764771, 3516065817,
   3600352804, 4094571909, 275423344, 430227734, 506948616,
   659060556, 883997877, 958139571, 1322822218, 1537002063,
   1747873779, 1955562222, 2024104815, 2227730452, 2361852424,
   2428436474, 2756734187, 3204031479, 3329325298]

/-- Initial hash state of SHA-256. -/
def H256 : List Nat :=
  [1779033703, 3144134277, 1013904242, 2773480762,
   1359893119, 2600822924, 528734635, 1541459225]

/-- Big-endian byte decomposition of a number into a fixed width. -/
def bytesBE : Nat → Nat → List Nat
  | 0, _ => []
  | n + 1, x => bytesBE n (x / 256) ++ [x % 256]

/-- SHA-256 padding: append the 0x80 marker, zeros up to 56 mod 64, and the
bit length as eight big-endian bytes. -/
def sha256pad (msg : List Nat) : List Nat :=
  msg ++ [0x80] ++ List.replicate ((119 - msg.length % 64) % 64) 0
      ++ bytesBE 8 (msg.length * 8)

/-- Group a byte list into big-endian 32-bit words. -/
def toWords : List Nat → List Nat
  | b0 :: b1 :: b2 :: b3 :: rest =>
      (((b0 * 256 + b1) * 256 + b2) * 256 + b3) :: toWords rest
  | _ => []

/-- Helper chunking bytes into blocks of 64, carrying the current block. -/
def chunk64Go : List Nat → List Nat → List (List Nat)
  | [], cur => if cur.isEmpty then [] else [cur]
  | b :: rest, cur =>
    if cur.length = 63 then (cur ++ [b]) :: chunk64Go rest []
    else chunk64Go rest (cur ++ [b])

/-- Chunk a byte list into blocks of 64 bytes. -/
def chunk64 (l : List Nat) : List (List Nat) := chunk64Go l []

/-- Message schedule: extend 16 words to 64 words. -/
def extendW (w : List Nat) : List Nat :=
  (List.range 48).foldl
    (fun acc _ =>
      let t := acc.length
      acc ++ [(ssig1 (acc.getD (t - 2) 0) + acc.getD (t - 7) 0
               + ssig0 (acc.getD (t - 15) 0) + acc.getD (t - 16) 0) % M32])
    w

/-- One compression round, on the eight-word working state. -/
def sha256Round (st : List Nat) (kw : Nat × Nat) : List Nat :=
  match st with
  | [a, b, c, d, e, f, g, h] =>
    let t1 := (h + bsig1 e + chF e f g + kw.1 + kw.2) % M32
    let t2 := (bsig0 a + majF a b c) % M32
    [(t1 + t2) % M32, a, b, c, (d + t1) % M32, e, f, g]
  | other => other

/-- Compress one 64-byte block into the running hash state. -/
def sha256Block (h : List Nat) (block : List Nat) : List Nat :=
  let st := ((K256.zip (extendW (toWords block))).foldl sha256Round h)
  (h.zip st).map (fun p => (p.1 + p.2) % M32)

/-- SHA-256 of a byte list, as 32 bytes. -/
def sha256 (msg : List Nat) : List Nat :=
  (((chunk64 (sha256pad msg)).foldl sha256Block H256).map (bytesBE 4)).flatten

/-- Lowercase hexadecimal digit. -/
def hexDigit : Nat → Char
  | 0 => '0' | 1 => '1' | 2 => '2' | 3 => '3' | 4 => '4' | 5 => '5'
  | 6 => '6' | 7 => '7' | 8 => '8' | 9 => '9' | 10 => 'a' | 11 => 'b'
  | 12 => 'c' | 13 => 'd' | 14 => 'e' | _ => 'f'

/-- Two lowercase hex digits of one byte. -/
def hexByte (b : Nat) : List Char := [hexDigit (b / 16), hexDigit (b % 16)]

/-- Lowercase hex digest string of a byte list. -/
def hexOfBytes (bs : List Nat) : List Char := (bs.map hexByte).flatten

/-- UTF-8 encoding of one character, as bytes. -/
def utf8Char (c : Char) : List Nat :=
  let n := c.toNat
  if n < 0x80 then [n]
  else if n < 0x800 then [0xc0 + n / 64, 0x80 + n % 64]
  else if n < 0x10000 then
    [0xe0 + n / 4096, 0x80 + (n / 64) % 64, 0x80 + n % 64]
  else
    [0xf0 + n / 262144, 0x80 + (n / 4096) % 64, 0x80 + (n / 64) % 64,
     0x80 + n % 64]

/-- UTF-8 encoding of a character list, mirroring the Python encode call. -/
def utf8Bytes (l : List Char) : List Nat := (l.map utf8Char).flatten

/-- Embedding of compute_ast_hash from hashing.py: the sha256 hex digest of
the normalized source, tagged with the algorithm name. -/
def compute_ast_hash (source : String) : String :=
  String.mk (("sha256:".data) ++ hexOfBytes (sha256 (utf8Bytes (normalizeSource source.data))))

/-! ## Staleness Store (db.py)

The SQLite descriptions table becomes a list of records threaded through
the operations; timestamps become Nat values passed in by the caller
(modelling datetime.utcnow), and the hash_history column keeps its list
content rather than its textual serialization. -/

/-- A row of the descriptions table. -/
structure DescriptionRecord where
  hash : String
  description : String
  stale : Bool
  created_at : Nat
  updated_at : Nat
  hash_history : List String
deriving DecidableEq, Repr

/-- The get method of HashIndex: first row whose key matches. -/
def hashIndexGet (db : List DescriptionRecord) (h : String) :
    Option DescriptionRecord :=
  db.find? (fun r => r.hash == h)

/-- The set method of HashIndex: update every row with the key in place,
refreshing updated_at, when a row exists; otherwise insert a new row with
created_at equal to updated_at equal to now. A missing history argument
defaults to the empty list. -/
def hashIndexSet (db : List DescriptionRecord) (h description : String)
    (stale : Bool) (hash_history : Option (List String)) (now : Nat) :
    List DescriptionRecord :=
  let history := hash_history.getD []
  match hashIndexGet db h with
  | some _ =>
    db.map (fun r =>
      if r.hash == h then
        { r with description := description, stale := stale,
                 updated_at := now, hash_history := history }
      else r)
  | none =>
    db ++ [{ hash := h, description := description, stale := stale,
             created_at := now, updated_at := now, hash_history := history }]

/-- The mark_stale method of HashIndex: a SQL update of every row with the
key, setting the flag and refreshing updated_at; rows with other keys and
a database without the key are untouched. -/
def hashIndexMarkStale (db : List DescriptionRecord) (h : String)
    (now : Nat) : List DescriptionRecord :=
  db.map (fun r =>
    if r.hash == h then { r with stale := true, updated_at := now } else r)

/-- The mark_fresh method of HashIndex, symmetric to mark_stale. -/
def hashIndexMarkFresh (db : List DescriptionRecord) (h : String)
    (now : Nat) : List DescriptionRecord :=
  db.map (fun r =>
    if r.hash == h then { r with stale := false, updated_at := now } else r)

/-! ## Data model of the pipeline (models.py, pipeline.py) -/

/-- Hierarchical scope levels of models.py; cls stands for the class level. -/
inductive Scope where
  | project | package | module | cls | function
deriving DecidableEq, Repr

/-- A parsed code entity, as handed to the pipeline by the external
tree-sitter service (location and parent name omitted: the modelled code
never reads them). -/
structure ParsedEntity where
  scope : Scope
  name : String
  source : String
  ast_hash : String
  language : String
deriving DecidableEq, Repr

/-- A work item: an entity with its file context (pipeline.py). -/
structure ParsedEntityWithFile where
  entity : ParsedEntity
  file_path : String
  language : String
  model : Option String
  needs_generation : Bool
deriving DecidableEq, Repr

/-- Result of generating a description for an entity (pipeline.py). -/
structure GenerationResult where
  entity : ParsedEntity
  file_path : String
  language : String
  description : Option String
  was_generated : Bool
deriving DecidableEq, Repr

/-! ## FileCompletionTracker (pipeline.py) -/

/-- State of the per-file completion tracker: the two defaultdicts become
total functions with the default values zero and the empty list, and the
plain module-description dict becomes an association list. -/
structure FileCompletionTracker where
  pending_per_file : String → Int
  results_per_file : String → List GenerationResult
  module_descriptions : List (String × Option String)

/-- A freshly constructed tracker. -/
def fctInit : FileCompletionTracker :=
  { pending_per_file := fun _ => 0
    results_per_file := fun _ => []
    module_descriptions := [] }

/-- The register_file method: store the expected entity count for a path. -/
def registerFile (t : FileCompletionTracker) (p : String) (k : Nat) :
    FileCompletionTracker :=
  { t with pending_per_file := fun q => if q = p then (k : Int) else t.pending_per_file q }

/-- Dictionary assignment for the module-descriptions map. -/
def setAssoc (m : List (String × Option String)) (k : String)
    (v : Option String) : List (String × Option String) :=
  if m.any (fun kv => kv.1 == k) then
    m.map (fun kv => if kv.1 == k then (k, v) else kv)
  else m ++ [(k, v)]

/-- Dictionary get with a None default for the module-descriptions map. -/
def getAssoc (m : List (String × Option String)) (k : String) :
    Option String :=
  match m.find? (fun kv => kv.1 == k) with
  | some kv => kv.2
  | none => none

/-- The add_result method: append the result for its path, decrement the
pending counter of that path (a missing path starts at the default zero),
record the description of a module-scope entity, and report whether the
counter is now exactly zero. -/
def addResult (t : FileCompletionTracker) (res : GenerationResult) :
    FileCompletionTracker × Bool :=
  let p := res.file_path
  let newPending := t.pending_per_file p - 1
  ({ pending_per_file := fun q => if q = p then newPending else t.pending_per_file q
     results_per_file := fun q =>
       if q = p then t.results_per_file p ++ [res] else t.results_per_file q
     module_descriptions :=
       if res.entity.scope = Scope.module then
         setAssoc t.module_descriptions p res.description
       else t.module_descriptions },
   decide (newPending = 0))

/-- A trace event against the tracker: a register_file call or an
add_result call, in the order some interleaving of scanners and workers
issued them under the tracker lock. -/
inductive TrackerOp where
  | register (p : String) (k : Nat)
  | add (res : GenerationResult)
deriving DecidableEq

/-- Run a trace of tracker operations, collecting for every add_result
call its path and returned completion flag, in order. -/
def runTrackerOps (t : FileCompletionTracker) :
    List TrackerOp → FileCompletionTracker × List (String × Bool)
  | [] => (t, [])
  | TrackerOp.register p k :: ops => runTrackerOps (registerFile t p k) ops
  | TrackerOp.add r :: ops =>
    let step := addResult t r
    let rest := runTrackerOps step.1 ops
    (rest.1, (r.file_path, step.2) :: rest.2)

/-- A trace never registers the given path. -/
def trackerNoRegister (p : String) (ops : List TrackerOp) : Prop :=
  ∀ k, TrackerOp.register p k ∉ ops

/-- Number of add_result calls for the given path in a trace. -/
def trackerAddCount (p : String) (ops : List TrackerOp) : Nat :=
  ops.countP (fun op =>
    match op with
    | TrackerOp.add r => r.file_path == p
    | _ => false)

/-- The completion flags returned by the add_result calls for one path. -/
def addReturnsFor (p : String) (outs : List (String × Bool)) : List Bool :=
  (outs.filter (fun x => x.1 == p)).map (fun x => x.2)

/-! ## Scanner and generation worker (pipeline.py)

External collaborators become parameters: the tree-sitter service is the
language tag and entity list carried by a file input, the scope-to-model
configuration lookup is a function on scopes, and the description
generator is a function returning none when the external call raises. -/

/-- A file as the scanner sees it after the external syntax service ran:
the detected language (empty when the file type is unrecognized, in which
case no entities were parsed) and the parsed entities. -/
structure FileInput where
  path : String
  lang : String
  entities : List ParsedEntity
deriving DecidableEq, Repr

/-- Embedding of scan_file: return no work for an unrecognized language;
otherwise classify every entity (needs generation when forced, or when the
store has no record for its hash, or when the record is stale), resolve
the model for its scope, and emit work items with the file context. -/
def scan_file (file : FileInput) (cfg : Scope → Option String)
    (db : List DescriptionRecord) (force : Bool) :
    List ParsedEntityWithFile × String :=
  if file.lang = "" then ([], "")
  else
    (file.entities.map (fun e =>
      let needs :=
        if force then true
        else
          match hashIndexGet db e.ast_hash with
          | none => true
          | some record => record.stale
      { entity := e, file_path := file.path, language := file.lang,
        model := cfg e.scope, needs_generation := needs }),
     file.lang)

/-- Embedding of generate_description. When the item does not need
generation, fetch the cached description and report a non-generated
result, leaving the store untouched; the last component counts calls to
the external generator (zero here). When it does, call the generator,
passing the model only when it is set and nonempty; a raised exception
(gen returning none) propagates as none, otherwise the new description is
stored fresh and a generated result is reported with one call counted. -/
def generate_description (ewc : ParsedEntityWithFile)
    (gen : ParsedEntity → Option String → Option String)
    (db : List DescriptionRecord) (now : Nat) :
    Option (GenerationResult × List DescriptionRecord × Nat) :=
  if ewc.needs_generation = false then
    let record := hashIndexGet db ewc.entity.ast_hash
    some ({ entity := ewc.entity, file_path := ewc.file_path,
            language := ewc.language,
            description := record.map (fun r => r.description),
            was_generated := false },
          db, 0)
  else
    let modelArg :=
      match ewc.model with
      | some m => if m = "" then none else some m
      | none => none
    match gen ewc.entity modelArg with
    | none => none
    | some description =>
      some ({ entity := ewc.entity, file_path := ewc.file_path,
              language := ewc.language, description := some description,
              was_generated := true },
            hashIndexSet db ewc.entity.ast_hash description false none now, 1)

/-- One recorded output write: the source path together with the entity
and description pairs, the language and the module description handed to
the external writer (the mapping of the source path to the lod path on
disk is external input and output). -/
structure LodWrite where
  file_path : String
  pairs : List (ParsedEntity × Option String)
  language : String
  module_description : Option String
deriving DecidableEq, Repr

/-- State threaded through the generation workers: the store, the
completion tracker, the two aggregate counters, the writes issued so far
and the number of external generator calls made. -/
structure WorkerState where
  db : List DescriptionRecord
  tracker : FileCompletionTracker
  total_generated : Nat
  total_skipped : Nat
  written : List LodWrite
  gen_calls : Nat

/-- The body of llm_worker for one dequeued item. A raised generation
exception is caught at this granularity and leaves the store, tracker,
counters and writes unchanged; in particular add_result is not reached.
On success the counters are updated, the result is added to the tracker,
and the worker observing a zero pending count gathers the accumulated
results of the path, filters out the module entity, and issues the write
when there are pairs or a module description. -/
def llmWorkerStep (fileLangs : String → String)
    (gen : ParsedEntity → Option String → Option String) (now : Nat)
    (st : WorkerState) (ewc : ParsedEntityWithFile) : WorkerState :=
  match generate_description ewc gen st.db now with
  | none => st
  | some (result, db, calls) =>
    let st :=
      { st with
        db := db
        gen_calls := st.gen_calls + calls
        total_generated :=
          if result.was_generated then st.total_generated + 1
          else st.total_generated
        total_skipped :=
          if result.was_generated then st.total_skipped
          else st.total_skipped + 1 }
    let step := addResult st.tracker result
    let st := { st with tracker := step.1 }
    if step.2 then
      let p := result.file_path
      let results := st.tracker.results_per_file p
      let module_desc := getAssoc st.tracker.module_descriptions p
      let pairs :=
        (results.filter (fun r => r.entity.scope ≠ Scope.module)).map
          (fun r => (r.entity, r.description))
      if !pairs.isEmpty || module_desc.isSome then
        { st with written := st.written ++
            [{ file_path := p, pairs := pairs, language := fileLangs p,
               module_description := module_desc }] }
      else st
    else st

/-! ## The pipeline (pipeline_generate)

Sequentialized as one legal schedule of the thread pools: every scanner
task runs first against the initial store (scans are read-only), the
registered files seed the tracker and the language map, the queue holds
the work items in file order, and the worker loop folds over the queue. -/

/-- Scanner phase: every file paired with its scan result. -/
def pipelineScans (files : List FileInput) (cfg : Scope → Option String)
    (db0 : List DescriptionRecord) (force : Bool) :
    List (FileInput × List ParsedEntityWithFile × String) :=
  files.map (fun f => (f, scan_file f cfg db0 force))

/-- The scans that register their file: a nonempty language tag and a
nonempty entity list, as in the scan_with_tracking guard. -/
def pipelineRegistered (files : List FileInput) (cfg : Scope → Option String)
    (db0 : List DescriptionRecord) (force : Bool) :
    List (FileInput × List ParsedEntityWithFile × String) :=
  (pipelineScans files cfg db0 force).filter
    (fun x => x.2.2 ≠ "" ∧ x.2.1 ≠ [])

/-- The shared queue contents: work items of registered files, in order. -/
def pipelineQueue (files : List FileInput) (cfg : Scope → Option String)
    (db0 : List DescriptionRecord) (force : Bool) :
    List ParsedEntityWithFile :=
  ((pipelineRegistered files cfg db0 force).map (fun x => x.2.1)).flatten

/-- The tracker seeded by the register_file calls of the scanners. -/
def pipelineTracker0 (files : List FileInput) (cfg : Scope → Option String)
    (db0 : List DescriptionRecord) (force : Bool) : FileCompletionTracker :=
  (pipelineRegistered files cfg db0 force).foldl
    (fun t x => registerFile t x.1.path x.2.1.length) fctInit

/-- The language map built by the scanners. -/
def pipelineLangs (files : List FileInput) (cfg : Scope → Option String)
    (db0 : List DescriptionRecord) (force : Bool) : String → String :=
  fun p =>
    match (pipelineRegistered files cfg db0 force).find?
        (fun x => x.1.path == p) with
    | some x => x.2.2
    | none => ""

/-- Embedding of pipeline_generate, returning the full final state. -/
def pipelineRun (files : List FileInput) (cfg : Scope → Option String)
    (gen : ParsedEntity → Option String → Option String)
    (db0 : List DescriptionRecord) (force : Bool) (now : Nat) :
    WorkerState :=
  (pipelineQueue files cfg db0 force).foldl
    (llmWorkerStep (pipelineLangs files cfg db0 force) gen now)
    { db := db0, tracker := pipelineTracker0 files cfg db0 force,
      total_generated := 0, total_skipped := 0, written := [], gen_calls := 0 }

/-- The pair returned by pipeline_generate: the total generated and the
total skipped counts. -/
def pipeline_generate (files : List FileInput) (cfg : Scope → Option String)
    (gen : ParsedEntity → Option String → Option String)
    (db0 : List DescriptionRecord) (force : Bool) (now : Nat) : Nat × Nat :=
  ((pipelineRun files cfg gen db0 force now).total_generated,
   (pipelineRun files cfg gen db0 force now).total_skipped)

/-! ## Helper lemmas about the store -/

/-- Point lookups commute with a row update that preserves keys. -/
theorem hashIndexGet_map (db : List DescriptionRecord)
    (u : DescriptionRecord → DescriptionRecord)
    (hu : ∀ r, (u r).hash = r.hash) (h2 : String) :
    hashIndexGet (db.map u) h2 = (hashIndexGet db h2).map u := by
  induction db with
  | nil => rfl
  | cons r db ih =>
    simp only [hashIndexGet, List.map_cons, List.find?] at *
    rw [hu r]
    cases hr : (r.hash == h2) with
    | true => rfl
    | false => exact ih

/-- A lookup that fails on the first part of an appended table continues
in the second part. -/
theorem find?_append_none {α : Type} (l1 l2 : List α) (p : α → Bool)
    (h : List.find? p l1 = none) :
    List.find? p (l1 ++ l2) = List.find? p l2 := by
  induction l1 with
  | nil => rfl
  | cons a l1 ih =>
    simp only [List.find?] at *
    cases ha : p a with
    | true => rw [ha] at h; exact Option.noConfusion h
    | false => rw [ha] at h; exact ih h

/-- Appending a row that does not match the lookup key leaves the lookup
unchanged. -/
theorem find?_append_singleton {α : Type} (l : List α) (a : α) (p : α → Bool)
    (ha : p a = false) :
    List.find? p (l ++ [a]) = List.find? p l := by
  induction l with
  | nil => simp [List.find?, ha]
  | cons b l ih =>
    simp only [List.cons_append, List.find?]
    cases hb : p b with
    | true => rfl
    | false => exact ih

/-- C7: HashIndex.set has upsert semantics: if a record for the hash
already exists, the description, stale flag and hash_history are updated
in place with updated_at refreshed and created_at left unchanged; if no
record exists, a new record is inserted with created_at equal to
updated_at equal to the current time; records under other hashes are
untouched. -/
theorem claim_C7_hashIndexSet_upsert
    (db : List DescriptionRecord) (h d : String) (st : Bool)
    (hist : Option (List String)) (now : Nat) :
    (∀ r0, hashIndexGet db h = some r0 →
      hashIndexGet (hashIndexSet db h d st hist now) h =
        some { hash := r0.hash, description := d, stale := st,
               created_at := r0.created_at, updated_at := now,
               hash_history := hist.getD [] })
    ∧ (hashIndexGet db h = none →
      hashIndexGet (hashIndexSet db h d st hist now) h =
        some { hash := h, description := d, stale := st,
               created_at := now, updated_at := now,
               hash_history := hist.getD [] })
    ∧ (∀ h2, h2 ≠ h →
      hashIndexGet (hashIndexSet db h d st hist now) h2 =
        hashIndexGet db h2) := by
  refine ⟨?_, ?_, ?_⟩
  · intro r0 hr0
    unfold hashIndexSet
    rw [hr0]
    simp only
    rw [hashIndexGet_map db _ (fun r => by split <;> rfl) h, hr0]
    have hr0f : List.find? (fun r => r.hash == h) db = some r0 := hr0
    have hr0h := List.find?_some hr0f
    simp only [beq_iff_eq] at hr0h
    simp [hr0h]
  · intro hnone
    unfold hashIndexSet
    rw [hnone]
    simp only [hashIndexGet] at *
    rw [find?_append_none db _ _ hnone]
    simp [List.find?]
  · intro h2 hne
    unfold hashIndexSet
    cases hget : hashIndexGet db h with
    | some r0 =>
      simp only
      rw [hashIndexGet_map db _ (fun r => by split <;> rfl) h2]
      cases hget2 : hashIndexGet db h2 with
      | none => rfl
      | some r2 =>
        have hr2 : r2.hash = h2 := by
          have := List.find?_some hget2
          simpa using this
        simp only [Option.map_some']
        have : (r2.hash == h) = false := by
          simp [hr2]
          exact hne
        simp [this]
    | none =>
      simp only
      apply find?_append_singleton
      simp
      exact fun hc => absurd hc.symm hne

/-- C7 witness: the upsert evaluated on an empty store and on a store
holding the inserted record. -/
theorem claim_C7_hashIndexSet_upsert_witness :
    (hashIndexGet (hashIndexSet [] ("h1") ("d") false none 5) ("h1") =
      some { hash := "h1", description := "d", stale := false,
             created_at := 5, updated_at := 5, hash_history := [] })
    ∧ (hashIndexGet (hashIndexSet [] ("h1") ("d") false none 5) ("h2") =
      hashIndexGet [] ("h2")) :=
  ⟨(claim_C7_hashIndexSet_upsert [] "h1" "d" false none 5).2.1 rfl,
   (claim_C7_hashIndexSet_upsert [] "h1" "d" false none 5).2.2 "h2"
     (by decide)⟩

/-- C8: mark_stale and mark_fresh are idempotent with respect to the
stale flag, and are no-ops on a hash with no record: they raise no error,
insert nothing, and leave every existing record unchanged. -/
theorem claim_C8_mark_idempotent_noop
    (db : List DescriptionRecord) (h : String) (t1 t2 t3 : Nat) :
    (∀ h2,
      (hashIndexGet (hashIndexMarkStale (hashIndexMarkStale db h t1) h t2)
          h2).map (fun r => r.stale)
        = (hashIndexGet (hashIndexMarkStale db h t1) h2).map
            (fun r => r.stale))
    ∧ (∀ h2,
      (hashIndexGet (hashIndexMarkFresh (hashIndexMarkFresh db h t1) h t2)
          h2).map (fun r => r.stale)
        = (hashIndexGet (hashIndexMarkFresh db h t1) h2).map
            (fun r => r.stale))
    ∧ (hashIndexGet db h = none →
        hashIndexMarkStale db h t3 = db ∧ hashIndexMarkFresh db h t3 = db) := by
  have hpres : ∀ (b : Bool) (t : Nat)
      (r : DescriptionRecord),
      ((if r.hash == h then { r with stale := b, updated_at := t } else
        r).hash) = r.hash := by
    intro b t r; split <;> rfl
  refine ⟨?_, ?_, ?_⟩
  · intro h2
    unfold hashIndexMarkStale
    rw [hashIndexGet_map _ _ (hpres true t2) h2,
        hashIndexGet_map db _ (hpres true t1) h2]
    cases hashIndexGet db h2 with
    | none => rfl
    | some r => simp only [Option.map_some']; split <;> simp
  · intro h2
    unfold hashIndexMarkFresh
    rw [hashIndexGet_map _ _ (hpres false t2) h2,
        hashIndexGet_map db _ (hpres false t1) h2]
    cases hashIndexGet db h2 with
    | none => rfl
    | some r => simp only [Option.map_some']; split <;> simp
  · intro hnone
    have hmem : ∀ r ∈ db, (r.hash == h) = false := by
      intro r hr
      have := List.find?_eq_none.mp hnone r hr
      simpa using this
    constructor
    · unfold hashIndexMarkStale
      calc db.map _ = db.map id := by
            apply List.map_congr_left
            intro r hr
            simp [hmem r hr]
        _ = db := List.map_id db
    · unfold hashIndexMarkFresh
      calc db.map _ = db.map id := by
            apply List.map_congr_left
            intro r hr
            simp [hmem r hr]
        _ = db := List.map_id db

/-- C8 witness: marking evaluated on a one-record store for the present
hash and an absent hash. -/
theorem claim_C8_mark_idempotent_noop_witness :
    ((hashIndexGet
        (hashIndexMarkStale
          (hashIndexMarkStale
            [{ hash := "h1", description := "d", stale := false,
               created_at := 0, updated_at := 0, hash_history := [] }]
            ("h1") 1) ("h1") 2) ("h1")).map (fun r => r.stale)
      = (hashIndexGet
          (hashIndexMarkStale
            [{ hash := "h1", description := "d", stale := false,
               created_at := 0, updated_at := 0, hash_history := [] }]
            ("h1") 1) ("h1")).map (fun r => r.stale))
    ∧ (hashIndexMarkStale
        [{ hash := "h1", description := "d", stale := false,
           created_at := 0, updated_at := 0, hash_history := [] }]
        ("h2") 3 =
        [{ hash := "h1", description := "d", stale := false,
           created_at := 0, updated_at := 0, hash_history := [] }]) :=
  ⟨(claim_C8_mark_idempotent_noop
      [{ hash := "h1", description := "d", stale := false,
         created_at := 0, updated_at := 0, hash_history := [] }]
      "h1" 1 2 3).1 "h1",
   ((claim_C8_mark_idempotent_noop
      [{ hash := "h1", description := "d", stale := false,
         created_at := 0, updated_at := 0, hash_history := [] }]
      "h2" 1 2 3).2.2 (by decide)).1⟩

/-- C6: for a work item with needs_generation false, the worker produces a
result with was_generated false whose description is the one fetched from
the store for the entity hash, makes no call to the external generator
(the call counter is zero, so the outcome is independent of the generator)
and performs no write to the store. Helper form, reused by the pipeline
lemmas; the claim itself is stated below. -/
theorem generate_description_skip (ewc : ParsedEntityWithFile)
    (gen : ParsedEntity → Option String → Option String)
    (db : List DescriptionRecord) (now : Nat)
    (hskip : ewc.needs_generation = false) :
    generate_description ewc gen db now =
      some ({ entity := ewc.entity, file_path := ewc.file_path,
              language := ewc.language,
              description :=
                (hashIndexGet db ewc.entity.ast_hash).map
                  (fun r => r.description),
              was_generated := false },
            db, 0) := by
  unfold generate_description
  rw [hskip]
  simp

/-- C6: for a work item with needs_generation false, the worker produces a
result with was_generated false whose description is the one fetched from
the store for the entity hash, makes no call to the external generator,
and performs no write to the store. -/
theorem claim_C6_cache_hit (ewc : ParsedEntityWithFile)
    (gen : ParsedEntity → Option String → Option String)
    (db : List DescriptionRecord) (now : Nat)
    (hskip : ewc.needs_generation = false) :
    generate_description ewc gen db now =
      some ({ entity := ewc.entity, file_path := ewc.file_path,
              language := ewc.language,
              description :=
                (hashIndexGet db ewc.entity.ast_hash).map
                  (fun r => r.description),
              was_generated := false },
            db, 0) :=
  generate_description_skip ewc gen db now hskip

/-- C6 witness: the cache-hit branch evaluated on a singleton store. -/
theorem claim_C6_cache_hit_witness :
    generate_description
      { entity := { scope := Scope.function, name := "f", source := "x",
                    ast_hash := "h1", language := "python" },
        file_path := "a.py", language := "python", model := none,
        needs_generation := false }
      (fun _ _ => some "ignored")
      [{ hash := "h1", description := "cached", stale := false,
         created_at := 0, updated_at := 0, hash_history := [] }] 7 =
      some ({ entity := { scope := Scope.function, name := "f",
                          source := "x", ast_hash := "h1",
                          language := "python" },
              file_path := "a.py", language := "python",
              description :=
                (hashIndexGet
                  [{ hash := "h1", description := "cached", stale := false,
                     created_at := 0, updated_at := 0, hash_history := [] }]
                  ("h1")).map (fun r => r.description),
              was_generated := false },
            [{ hash := "h1", description := "cached", stale := false,
               created_at := 0, updated_at := 0, hash_history := [] }], 0) :=
  claim_C6_cache_hit
    { entity := { scope := Scope.function, name := "f", source := "x",
                  ast_hash := "h1", language := "python" },
      file_path := "a.py", language := "python", model := none,
      needs_generation := false }
    (fun _ _ => some "ignored")
    [{ hash := "h1", description := "cached", stale := false,
       created_at := 0, updated_at := 0, hash_history := [] }] 7 rfl

/-! ## Trace lemmas for the completion tracker -/

/-- Running a trace that never registers a path: the pending counter of
that path drops by exactly the number of add_result calls for it, and the
i-th such call reports completion exactly when it brings the counter from
its starting value to zero. -/
theorem runTrackerOps_no_register (p : String) :
    ∀ (ops : List TrackerOp) (t : FileCompletionTracker),
    trackerNoRegister p ops →
    (runTrackerOps t ops).1.pending_per_file p =
        t.pending_per_file p - trackerAddCount p ops
    ∧ addReturnsFor p (runTrackerOps t ops).2 =
        (List.range (trackerAddCount p ops)).map
          (fun (i : Nat) =>
            decide (t.pending_per_file p - ((i : Int) + 1) = 0)) := by
  intro ops
  induction ops with
  | nil =>
    intro t _
    simp [runTrackerOps, trackerAddCount, addReturnsFor]
  | cons op ops ih =>
    intro t hnr
    have hnrTail : trackerNoRegister p ops := by
      intro k hk
      exact hnr k (List.mem_cons_of_mem op hk)
    cases op with
    | register q k =>
      have hqp : q ≠ p := by
        intro hqp
        exact hnr k (by rw [hqp]; exact List.mem_cons_self _ _)
      have hpend : (registerFile t q k).pending_per_file p =
          t.pending_per_file p := by
        simp [registerFile, hqp.symm]
      have hcount : trackerAddCount p (TrackerOp.register q k :: ops) =
          trackerAddCount p ops := by
        simp [trackerAddCount, List.countP_cons]
      obtain ⟨ih1, ih2⟩ := ih (registerFile t q k) hnrTail
      refine ⟨?_, ?_⟩
      · simp only [runTrackerOps, hcount]
        rw [ih1, hpend]
      · simp only [runTrackerOps, hcount]
        rw [ih2, hpend]
    | add r =>
      by_cases hrp : r.file_path = p
      · have hpend : ((addResult t r).1).pending_per_file p =
            t.pending_per_file p - 1 := by
          simp [addResult, hrp]
        have hcount : trackerAddCount p (TrackerOp.add r :: ops) =
            trackerAddCount p ops + 1 := by
          simp [trackerAddCount, List.countP_cons, hrp]
        obtain ⟨ih1, ih2⟩ := ih (addResult t r).1 hnrTail
        refine ⟨?_, ?_⟩
        · simp only [runTrackerOps, hcount]
          rw [ih1, hpend]
          omega
        · simp only [runTrackerOps, hcount]
          have hret : addReturnsFor p
              ((r.file_path, (addResult t r).2) :: (runTrackerOps (addResult t r).1 ops).2) =
              (addResult t r).2 :: addReturnsFor p (runTrackerOps (addResult t r).1 ops).2 := by
            simp [addReturnsFor, hrp]
          rw [hret, ih2, hpend]
          have hflag : (addResult t r).2 =
              decide (t.pending_per_file p - 1 = 0) := by
            simp [addResult, hrp]
          rw [hflag, List.range_succ_eq_map, List.map_cons, List.map_map]
          congr 1
          apply List.map_congr_left
          intro i _
          simp only [Function.comp]
          apply decide_eq_decide.mpr
          push_cast
          omega
      · have hpend : ((addResult t r).1).pending_per_file p =
            t.pending_per_file p := by
          have hpr : p ≠ r.file_path := fun h => hrp h.symm
          simp [addResult, hpr]
        have hcount : trackerAddCount p (TrackerOp.add r :: ops) =
            trackerAddCount p ops := by
          simp [trackerAddCount, List.countP_cons, hrp]
        obtain ⟨ih1, ih2⟩ := ih (addResult t r).1 hnrTail
        refine ⟨?_, ?_⟩
        · simp only [runTrackerOps, hcount]
          rw [ih1, hpend]
        · simp only [runTrackerOps, hcount]
          have hret : addReturnsFor p
              ((r.file_path, (addResult t r).2) :: (runTrackerOps (addResult t r).1 ops).2) =
              addReturnsFor p (runTrackerOps (addResult t r).1 ops).2 := by
            simp [addReturnsFor, hrp]
          rw [hret, ih2, hpend]

/-- Mapping the zero test over a countdown from K gives false until the
final step and true exactly there. -/
theorem countdown_map_eq_replicate_append (K : Nat) (hK : 1 ≤ K) :
    (List.range K).map
        (fun (i : Nat) => decide ((K : Int) - ((i : Int) + 1) = 0)) =
      List.replicate (K - 1) false ++ [true] := by
  obtain ⟨m, rfl⟩ : ∃ m, K = m + 1 := ⟨K - 1, by omega⟩
  rw [List.range_succ, List.map_append, List.map_singleton]
  congr 1
  · apply List.eq_replicate_iff.mpr
    refine ⟨by simp, ?_⟩
    intro b hb
    obtain ⟨i, hi, rfl⟩ := List.mem_map.mp hb
    have hilt : i < m := List.mem_range.mp hi
    apply decide_eq_false
    push_cast
    omega
  · simp only [List.cons.injEq, and_true]
    apply decide_eq_true
    push_cast
    omega

/-- C1: for every file registered with K entities, with K add_result calls
for that file arriving in any interleaving with operations on other files
and no further registration of it, add_result returns false on the first
K - 1 of those calls and true on the K-th: the barrier fires exactly once,
and only after all K results have been added. -/
theorem claim_C1_completion_barrier (t0 : FileCompletionTracker)
    (p : String) (K : Nat) (ops : List TrackerOp) (hK : 1 ≤ K)
    (hnr : trackerNoRegister p ops) (hcount : trackerAddCount p ops = K) :
    addReturnsFor p (runTrackerOps (registerFile t0 p K) ops).2 =
      List.replicate (K - 1) false ++ [true] := by
  obtain ⟨-, h2⟩ := runTrackerOps_no_register p ops (registerFile t0 p K) hnr
  have hpend : (registerFile t0 p K).pending_per_file p = (K : Int) := by
    simp [registerFile]
  rw [h2, hpend, hcount]
  exact countdown_map_eq_replicate_append K hK

/-- C1 witness: a file registered with two entities, two results arriving
with a result for another file between them; the flags are false then true. -/
theorem claim_C1_completion_barrier_witness :
    addReturnsFor ("a.py")
      (runTrackerOps (registerFile fctInit ("a.py") 2)
        [TrackerOp.add
          { entity := { scope := Scope.function, name := "f", source := "x",
                        ast_hash := "h1", language := "python" },
            file_path := "a.py", language := "python",
            description := some "d1", was_generated := true },
         TrackerOp.add
          { entity := { scope := Scope.function, name := "g", source := "y",
                        ast_hash := "h2", language := "python" },
            file_path := "b.py", language := "python",
            description := some "d2", was_generated := true },
         TrackerOp.add
          { entity := { scope := Scope.module, name := "m", source := "z",
                        ast_hash := "h3", language := "python" },
            file_path := "a.py", language := "python",
            description := some "d3", was_generated := true }]).2 =
      List.replicate (2 - 1) false ++ [true] :=
  claim_C1_completion_barrier fctInit "a.py" 2 _ (by decide)
    (by intro k hk; simp [trackerNoRegister] at hk) (by rfl)

/-- C10: for a path never registered, every add_result call for it returns
false and the pending counter ends at the negated number of such calls,
so an output write is never triggered for an unregistered file. -/
theorem claim_C10_unregistered_no_fire (p : String) (ops : List TrackerOp)
    (hnr : trackerNoRegister p ops) :
    addReturnsFor p (runTrackerOps fctInit ops).2 =
      List.replicate (trackerAddCount p ops) false
    ∧ (runTrackerOps fctInit ops).1.pending_per_file p =
      -(trackerAddCount p ops : Int) := by
  obtain ⟨h1, h2⟩ := runTrackerOps_no_register p ops fctInit hnr
  have hpend : fctInit.pending_per_file p = 0 := rfl
  refine ⟨?_, by rw [h1, hpend]; omega⟩
  rw [h2, hpend]
  apply List.eq_replicate_iff.mpr
  refine ⟨by simp, ?_⟩
  intro b hb
  obtain ⟨i, -, rfl⟩ := List.mem_map.mp hb
  apply decide_eq_false
  omega

/-- C10 witness: two results for a never-registered path return false
twice and leave the counter at minus two. -/
theorem claim_C10_unregistered_no_fire_witness :
    addReturnsFor ("c.py")
      (runTrackerOps fctInit
        [TrackerOp.add
          { entity := { scope := Scope.function, name := "f", source := "x",
                        ast_hash := "h1", language := "python" },
            file_path := "c.py", language := "python",
            description := some "d1", was_generated := true },
         TrackerOp.add
          { entity := { scope := Scope.function, name := "g", source := "y",
                        ast_hash := "h2", language := "python" },
            file_path := "c.py", language := "python",
            description := some "d2", was_generated := true }]).2 =
      List.replicate
        (trackerAddCount ("c.py")
          [TrackerOp.add
            { entity := { scope := Scope.function, name := "f", source := "x",
                          ast_hash := "h1", language := "python" },
              file_path := "c.py", language := "python",
              description := some "d1", was_generated := true },
           TrackerOp.add
            { entity := { scope := Scope.function, name := "g", source := "y",
                          ast_hash := "h2", language := "python" },
              file_path := "c.py", language := "python",
              description := some "d2", was_generated := true }]) false :=
  (claim_C10_unregistered_no_fire "c.py" _
    (by intro k hk; simp [trackerNoRegister] at hk)).1

/-! ## Pipeline count lemmas -/

/-- A cache-hit item leaves the generated counter unchanged and increments
the skipped counter. -/
theorem llmWorkerStep_skip_counts (fileLangs : String → String)
    (gen : ParsedEntity → Option String → Option String) (now : Nat)
    (st : WorkerState) (ewc : ParsedEntityWithFile)
    (hskip : ewc.needs_generation = false) :
    (llmWorkerStep fileLangs gen now st ewc).total_generated =
        st.total_generated
    ∧ (llmWorkerStep fileLangs gen now st ewc).total_skipped =
        st.total_skipped + 1 := by
  unfold llmWorkerStep
  rw [generate_description_skip ewc gen st.db now hskip]
  simp only
  split <;> split <;> simp_all

theorem llmWorkerStep_gen_skipped (fileLangs : String → String)
    (gen : ParsedEntity → Option String → Option String) (now : Nat)
    (st : WorkerState) (ewc : ParsedEntityWithFile)
    (hgen : ewc.needs_generation = true) :
    (llmWorkerStep fileLangs gen now st ewc).total_skipped =
      st.total_skipped := by
  unfold llmWorkerStep generate_description
  rw [hgen]
  simp only [Bool.true_eq_false, if_false]
  split
  · rfl
  · next heq =>
    split at heq
    · exact absurd heq (by simp)
    · next hd =>
      cases heq
      split <;> split <;> simp_all

theorem foldl_worker_skip_counts (fileLangs : String → String)
    (gen : ParsedEntity → Option String → Option String) (now : Nat) :
    ∀ (items : List ParsedEntityWithFile) (st : WorkerState),
    (∀ i ∈ items, i.needs_generation = false) →
    (items.foldl (llmWorkerStep fileLangs gen now) st).total_generated =
        st.total_generated
    ∧ (items.foldl (llmWorkerStep fileLangs gen now) st).total_skipped =
        st.total_skipped + items.length := by
  intro items
  induction items with
  | nil => intro st _; simp
  | cons i items ih =>
    intro st hall
    have hi := hall i (List.mem_cons_self _ _)
    have htail : ∀ j ∈ items, j.needs_generation = false :=
      fun j hj => hall j (List.mem_cons_of_mem _ hj)
    obtain ⟨s1, s2⟩ :=
      llmWorkerStep_skip_counts fileLangs gen now st i hi
    obtain ⟨f1, f2⟩ := ih (llmWorkerStep fileLangs gen now st i) htail
    constructor
    · simp only [List.foldl_cons]
      rw [f1, s1]
    · simp only [List.foldl_cons, List.length_cons]
      rw [f2, s2]
      omega

theorem foldl_worker_gen_skipped (fileLangs : String → String)
    (gen : ParsedEntity → Option String → Option String) (now : Nat) :
    ∀ (items : List ParsedEntityWithFile) (st : WorkerState),
    (∀ i ∈ items, i.needs_generation = true) →
    (items.foldl (llmWorkerStep fileLangs gen now) st).total_skipped =
      st.total_skipped := by
  intro items
  induction items with
  | nil => intro st _; simp
  | cons i items ih =>
    intro st hall
    have hi := hall i (List.mem_cons_self _ _)
    have htail : ∀ j ∈ items, j.needs_generation = true :=
      fun j hj => hall j (List.mem_cons_of_mem _ hj)
    simp only [List.foldl_cons]
    rw [ih _ htail, llmWorkerStep_gen_skipped fileLangs gen now st i hi]

theorem scan_file_needs_force (f : FileInput) (cfg : Scope → Option String)
    (db : List DescriptionRecord) :
    ∀ i ∈ (scan_file f cfg db true).1, i.needs_generation = true := by
  intro i hi
  unfold scan_file at hi
  split at hi
  · simp at hi
  · simp only at hi
    obtain ⟨e, -, rfl⟩ := List.mem_map.mp hi
    rfl

theorem scan_file_needs_fresh (f : FileInput) (cfg : Scope → Option String)
    (db : List DescriptionRecord)
    (hfresh : ∀ e ∈ f.entities,
      (hashIndexGet db e.ast_hash).map (fun r => r.stale) = some false) :
    ∀ i ∈ (scan_file f cfg db false).1, i.needs_generation = false := by
  intro i hi
  unfold scan_file at hi
  split at hi
  · simp at hi
  · simp only at hi
    obtain ⟨e, he, rfl⟩ := List.mem_map.mp hi
    obtain ⟨r, hr, hst⟩ := Option.map_eq_some'.mp (hfresh e he)
    simp [hr, hst]

theorem pipelineQueue_cons (f : FileInput) (files : List FileInput)
    (cfg : Scope → Option String) (db0 : List DescriptionRecord)
    (force : Bool) :
    pipelineQueue (f :: files) cfg db0 force =
      (scan_file f cfg db0 force).1 ++ pipelineQueue files cfg db0 force := by
  unfold pipelineQueue pipelineRegistered pipelineScans
  simp only [List.map_cons, List.filter_cons]
  split
  · simp
  · next hpred =>
    have hempty : (scan_file f cfg db0 force).1 = [] := by
      by_cases hl : f.lang = ""
      · simp [scan_file, hl]
      · by_contra hne
        apply hpred
        simp only [decide_eq_true_eq]
        constructor
        · show (scan_file f cfg db0 force).2 ≠ ""
          simp [scan_file, hl]
        · exact hne
    rw [hempty]
    simp

theorem pipelineQueue_length (files : List FileInput)
    (cfg : Scope → Option String) (db0 : List DescriptionRecord)
    (force : Bool) (hlang : ∀ f ∈ files, f.lang ≠ "") :
    (pipelineQueue files cfg db0 force).length =
      (files.map (fun f => f.entities.length)).sum := by
  induction files with
  | nil => rfl
  | cons f files ih =>
    rw [pipelineQueue_cons, List.length_append,
        ih (fun g hg => hlang g (List.mem_cons_of_mem _ hg))]
    have hl := hlang f (List.mem_cons_self _ _)
    have : ((scan_file f cfg db0 force).1).length = f.entities.length := by
      simp [scan_file, hl]
    rw [this]
    simp

theorem mem_pipelineQueue (files : List FileInput)
    (cfg : Scope → Option String) (db0 : List DescriptionRecord)
    (force : Bool) (i : ParsedEntityWithFile)
    (hi : i ∈ pipelineQueue files cfg db0 force) :
    ∃ f ∈ files, i ∈ (scan_file f cfg db0 force).1 := by
  induction files with
  | nil => simp [pipelineQueue, pipelineRegistered, pipelineScans] at hi
  | cons f files ih =>
    rw [pipelineQueue_cons] at hi
    rcases List.mem_append.mp hi with h | h
    · exact ⟨f, List.mem_cons_self _ _, h⟩
    · obtain ⟨g, hg, hgi⟩ := ih h
      exact ⟨g, List.mem_cons_of_mem _ hg, hgi⟩

/-- C3: running the pipeline on a file set whose every entity already has
a fresh record in the store (as after a completed first run), with force
false, returns generated_count zero and skipped_count equal to the total
number of entities across all files. -/
theorem claim_C3_second_run_idempotent (files : List FileInput)
    (cfg : Scope → Option String)
    (gen : ParsedEntity → Option String → Option String)
    (db0 : List DescriptionRecord) (now : Nat)
    (hlang : ∀ f ∈ files, f.lang ≠ "")
    (hfresh : ∀ f ∈ files, ∀ e ∈ f.entities,
      (hashIndexGet db0 e.ast_hash).map (fun r => r.stale) = some false) :
    pipeline_generate files cfg gen db0 false now =
      (0, (files.map (fun f => f.entities.length)).sum) := by
  have hall : ∀ i ∈ pipelineQueue files cfg db0 false,
      i.needs_generation = false := by
    intro i hi
    obtain ⟨f, hf, hfi⟩ := mem_pipelineQueue files cfg db0 false i hi
    exact scan_file_needs_fresh f cfg db0 (hfresh f hf) i hfi
  obtain ⟨h1, h2⟩ :=
    foldl_worker_skip_counts (pipelineLangs files cfg db0 false) gen now
      (pipelineQueue files cfg db0 false)
      { db := db0, tracker := pipelineTracker0 files cfg db0 false,
        total_generated := 0, total_skipped := 0, written := [],
        gen_calls := 0 } hall
  unfold pipeline_generate pipelineRun
  rw [h1, h2, pipelineQueue_length files cfg db0 false hlang]
  simp

/-- C3 witness: one recognized file with one entity whose hash has a fresh
record; the second run yields zero generated and one skipped. -/
theorem claim_C3_second_run_idempotent_witness :
    pipeline_generate
      [{ path := "a.py", lang := "python",
         entities := [{ scope := Scope.function, name := "f", source := "x",
                        ast_hash := "h1", language := "python" }] }]
      (fun _ => none) (fun _ _ => none)
      [{ hash := "h1", description := "d", stale := false,
         created_at := 0, updated_at := 0, hash_history := [] }] false 0 =
      (0, ([{ path := "a.py", lang := "python",
              entities := [{ scope := Scope.function, name := "f",
                             source := "x", ast_hash := "h1",
                             language := "python" }] }].map
            (fun (f : FileInput) => f.entities.length)).sum) :=
  claim_C3_second_run_idempotent
    [{ path := "a.py", lang := "python",
       entities := [{ scope := Scope.function, name := "f", source := "x",
                      ast_hash := "h1", language := "python" }] }]
    (fun _ => none) (fun _ _ => none)
    [{ hash := "h1", description := "d", stale := false,
       created_at := 0, updated_at := 0, hash_history := [] }] 0
    (by decide) (by decide)

/-- C4: the scanner classifies needs_generation as forced or absent or
stale, so with force true every scanned entity has needs_generation true
even when a fresh cached record exists, and the skipped count of a forced
run is zero. -/
theorem claim_C4_force_override (files : List FileInput)
    (cfg : Scope → Option String)
    (gen : ParsedEntity → Option String → Option String)
    (db : List DescriptionRecord) (now : Nat) :
    (∀ f : FileInput, ∀ i ∈ (scan_file f cfg db true).1,
      i.needs_generation = true)
    ∧ (pipeline_generate files cfg gen db true now).2 = 0 := by
  refine ⟨fun f => scan_file_needs_force f cfg db, ?_⟩
  have hall : ∀ i ∈ pipelineQueue files cfg db true,
      i.needs_generation = true := by
    intro i hi
    obtain ⟨f, -, hfi⟩ := mem_pipelineQueue files cfg db true i hi
    exact scan_file_needs_force f cfg db i hfi
  have h2 :=
    foldl_worker_gen_skipped (pipelineLangs files cfg db true) gen now
      (pipelineQueue files cfg db true)
      { db := db, tracker := pipelineTracker0 files cfg db true,
        total_generated := 0, total_skipped := 0, written := [],
        gen_calls := 0 } hall
  unfold pipeline_generate pipelineRun
  rw [h2]

/-- C4 witness: a forced scan of a file whose entity has a fresh cached
record still marks it as needing generation, and the forced run skips
nothing. -/
theorem claim_C4_force_override_witness :
    ({ entity := { scope := Scope.function, name := "f", source := "x",
                   ast_hash := "h1", language := "python" },
       file_path := "a.py", language := "python", model := none,
       needs_generation := true } : ParsedEntityWithFile).needs_generation
      = true
    ∧ (pipeline_generate
        [{ path := "a.py", lang := "python",
           entities := [{ scope := Scope.function, name := "f",
                          source := "x", ast_hash := "h1",
                          language := "python" }] }]
        (fun _ => none) (fun _ _ => some "d")
        [{ hash := "h1", description := "d", stale := false,
           created_at := 0, updated_at := 0, hash_history := [] }]
        true 0).2 = 0 :=
  ⟨(claim_C4_force_override
      [{ path := "a.py", lang := "python",
         entities := [{ scope := Scope.function, name := "f", source := "x",
                        ast_hash := "h1", language := "python" }] }]
      (fun _ => none) (fun _ _ => some "d")
      [{ hash := "h1", description := "d", stale := false,
         created_at := 0, updated_at := 0, hash_history := [] }] 0).1
      { path := "a.py", lang := "python",
        entities := [{ scope := Scope.function, name := "f", source := "x",
                       ast_hash := "h1", language := "python" }] }
      _ (by decide),
   (claim_C4_force_override
      [{ path := "a.py", lang := "python",
         entities := [{ scope := Scope.function, name := "f", source := "x",
                        ast_hash := "h1", language := "python" }] }]
      (fun _ => none) (fun _ _ => some "d")
      [{ hash := "h1", description := "d", stale := false,
         created_at := 0, updated_at := 0, hash_history := [] }] 0).2⟩

/-- C5, evaluated at the failing input: a file with two entities where the
external generation call throws on the second. In the code the exception
is caught before add_result runs, so the pending counter is never
decremented for the failed entity: the entity is indeed dropped from the
result set, but the counter ends at one instead of zero, the barrier
never fires, and no output is written for the file even though the other
entity completed. -/
theorem claim_C5_generation_failure_skips_decrement :
    ((pipelineRun
        [{ path := "a.py", lang := "python",
           entities := [{ scope := Scope.function, name := "f", source := "x",
                          ast_hash := "h1", language := "python" },
                        { scope := Scope.function, name := "g", source := "y",
                          ast_hash := "h2", language := "python" }] }]
        (fun _ => none)
        (fun e _ => if e.name = "f" then some "d1" else none)
        [] true 0).written = [])
    ∧ ((pipelineRun
        [{ path := "a.py", lang := "python",
           entities := [{ scope := Scope.function, name := "f", source := "x",
                          ast_hash := "h1", language := "python" },
                        { scope := Scope.function, name := "g", source := "y",
                          ast_hash := "h2", language := "python" }] }]
        (fun _ => none)
        (fun e _ => if e.name = "f" then some "d1" else none)
        [] true 0).tracker.pending_per_file ("a.py") = 1)
    ∧ (((pipelineRun
        [{ path := "a.py", lang := "python",
           entities := [{ scope := Scope.function, name := "f", source := "x",
                          ast_hash := "h1", language := "python" },
                        { scope := Scope.function, name := "g", source := "y",
                          ast_hash := "h2", language := "python" }] }]
        (fun _ => none)
        (fun e _ => if e.name = "f" then some "d1" else none)
        [] true 0).tracker.results_per_file ("a.py")).map
          (fun r => r.entity.name) = ["f"]) := by
  refine ⟨by decide, by decide, by decide⟩


/-! ## Normalization shape lemmas (for the hashing claims) -/
theorem splitNL_ne_nil (s : List Char) : splitNL s ≠ [] := by
  cases s with
  | nil => simp [splitNL]
  | cons c cs =>
    simp only [splitNL]
    split
    · simp
    · split <;> simp

theorem splitNL_no_newline :
    ∀ (s : List Char), ∀ l ∈ splitNL s, '\n' ∉ l := by
  intro s
  induction s with
  | nil =>
    intro l hl
    simp [splitNL] at hl
    simp [hl]
  | cons c cs ih =>
    intro l hl
    by_cases hc : c = '\n'
    · rw [splitNL, if_pos hc] at hl
      rcases List.mem_cons.mp hl with rfl | hmem
      · simp
      · exact ih l hmem
    · rw [splitNL, if_neg hc] at hl
      cases hsp : splitNL cs with
      | nil => exact absurd hsp (splitNL_ne_nil cs)
      | cons l0 ls =>
        rw [hsp] at hl
        rcases List.mem_cons.mp hl with rfl | hmem
        · intro hmem2
          rcases List.mem_cons.mp hmem2 with h | h
          · exact hc h.symm
          · exact ih l0 (hsp ▸ List.mem_cons_self _ _) h
        · exact ih l (hsp ▸ List.mem_cons_of_mem _ hmem)

theorem splitNL_of_no_newline :
    ∀ (l : List Char), '\n' ∉ l → splitNL l = [l] := by
  intro l
  induction l with
  | nil => intro _; rfl
  | cons c cs ih =>
    intro h
    have hc : ¬c = '\n' := fun hcc => h (hcc ▸ List.mem_cons_self _ _)
    rw [splitNL, if_neg hc, ih (fun hm => h (List.mem_cons_of_mem _ hm))]

theorem splitNL_append_newline :
    ∀ (l t : List Char), '\n' ∉ l →
      splitNL (l ++ '\n' :: t) = l :: splitNL t := by
  intro l t
  induction l with
  | nil => intro _; simp [splitNL]
  | cons c cs ih =>
    intro h
    have hc : ¬c = '\n' := fun hcc => h (hcc ▸ List.mem_cons_self _ _)
    have ihr := ih (fun hm => h (List.mem_cons_of_mem _ hm))
    show splitNL (c :: (cs ++ '\n' :: t)) = _
    rw [splitNL, if_neg hc, ihr]

theorem joinNL_cons_cons (l l2 : List Char) (ls : List (List Char)) :
    joinNL (l :: l2 :: ls) = l ++ '\n' :: joinNL (l2 :: ls) := rfl

theorem splitNL_joinNL :
    ∀ (ls : List (List Char)), ls ≠ [] → (∀ l ∈ ls, '\n' ∉ l) →
      splitNL (joinNL ls) = ls := by
  intro ls
  induction ls with
  | nil => intro h; exact absurd rfl h
  | cons l ls ih =>
    intro _ hnl
    cases ls with
    | nil => exact splitNL_of_no_newline l (hnl l (List.mem_cons_self _ _))
    | cons l2 ls2 =>
      rw [joinNL_cons_cons,
          splitNL_append_newline _ _ (hnl l (List.mem_cons_self _ _)),
          ih (by simp) (fun g hg => hnl g (List.mem_cons_of_mem _ hg))]

theorem collapseSpacesAux_append_newline :
    ∀ (l : List Char) (b : Bool) (t : List Char),
      collapseSpacesAux b (l ++ '\n' :: t) =
        collapseSpacesAux b l ++ '\n' :: collapseSpacesAux false t := by
  intro l
  induction l with
  | nil =>
    intro b t
    simp [collapseSpacesAux]
  | cons c cs ih =>
    intro b t
    show collapseSpacesAux b (c :: (cs ++ '\n' :: t)) = _
    rw [collapseSpacesAux, collapseSpacesAux]
    by_cases hc : c = ' '
    · rw [if_pos hc, if_pos hc]
      by_cases hb : b
      · rw [if_pos hb, if_pos hb, ih]
      · rw [if_neg hb, if_neg hb, ih]
        simp
    · rw [if_neg hc, if_neg hc, ih]
      simp

theorem collapseSpaces_joinNL :
    ∀ (ls : List (List Char)),
      collapseSpaces (joinNL ls) = joinNL (ls.map collapseSpaces) := by
  intro ls
  induction ls with
  | nil => rfl
  | cons l ls ih =>
    cases ls with
    | nil => rfl
    | cons l2 ls2 =>
      rw [joinNL_cons_cons, List.map_cons, List.map_cons, joinNL_cons_cons]
      show collapseSpacesAux false (l ++ '\n' :: joinNL (l2 :: ls2)) = _
      rw [collapseSpacesAux_append_newline]
      show collapseSpaces l ++ '\n' :: collapseSpaces (joinNL (l2 :: ls2)) = _
      rw [List.map_cons] at ih
      rw [ih]

theorem collapseSpaces_eq_nil_iff (l : List Char) :
    collapseSpaces l = [] ↔ l = [] := by
  constructor
  · intro h
    cases l with
    | nil => rfl
    | cons c cs =>
      exfalso
      by_cases hc : c = ' '
      · rw [collapseSpaces, collapseSpacesAux, if_pos hc] at h
        simp at h
      · rw [collapseSpaces, collapseSpacesAux, if_neg hc] at h
        simp at h
  · intro h; rw [h]; rfl

theorem mem_collapseSpacesAux :
    ∀ (l : List Char) (b : Bool) (x : Char),
      x ∈ collapseSpacesAux b l → x ∈ l := by
  intro l
  induction l with
  | nil => intro b x h; simp [collapseSpacesAux] at h
  | cons c cs ih =>
    intro b x h
    rw [collapseSpacesAux] at h
    by_cases hc : c = ' '
    · rw [if_pos hc] at h
      by_cases hb : b
      · rw [if_pos hb] at h
        exact List.mem_cons_of_mem _ (ih _ _ h)
      · rw [if_neg hb] at h
        rcases List.mem_cons.mp h with rfl | hm
        · rw [hc]; exact List.mem_cons_self _ _
        · exact List.mem_cons_of_mem _ (ih _ _ hm)
    · rw [if_neg hc] at h
      rcases List.mem_cons.mp h with rfl | hm
      · exact List.mem_cons_self _ _
      · exact List.mem_cons_of_mem _ (ih _ _ hm)


theorem collapseBlanks_head_ne_nil :
    ∀ (ls : List (List Char)), (collapseBlanks false ls).head? ≠ some [] := by
  intro ls
  induction ls with
  | nil => simp [collapseBlanks]
  | cons l ls ih =>
    rw [collapseBlanks]
    by_cases hl : l.isEmpty
    · rw [if_pos hl, if_neg (by simp)]
      exact ih
    · rw [if_neg hl]
      simp only [List.head?_cons, ne_eq, Option.some.injEq]
      intro h
      rw [h] at hl
      simp at hl

theorem collapseBlanks_chain :
    ∀ (ls : List (List Char)) (b : Bool),
      List.Chain' (fun a c => ¬(a = [] ∧ c = [])) (collapseBlanks b ls) := by
  intro ls
  induction ls with
  | nil => intro b; simp [collapseBlanks]
  | cons l ls ih =>
    intro b
    rw [collapseBlanks]
    by_cases hl : l.isEmpty
    · rw [if_pos hl]
      by_cases hb : b
      · rw [if_pos hb]
        apply List.chain'_cons'.mpr
        refine ⟨?_, ih false⟩
        intro y hy
        intro hcon
        apply collapseBlanks_head_ne_nil ls
        rw [hy, hcon.2]
      · rw [if_neg hb]
        exact ih false
    · rw [if_neg hl]
      apply List.chain'_cons'.mpr
      refine ⟨?_, ih true⟩
      intro y hy hcon
      rw [hcon.1] at hl
      simp at hl

theorem mem_collapseBlanks :
    ∀ (ls : List (List Char)) (b : Bool) (l : List Char),
      l ∈ collapseBlanks b ls → l = [] ∨ l ∈ ls := by
  intro ls
  induction ls with
  | nil => intro b l h; simp [collapseBlanks] at h
  | cons g ls ih =>
    intro b l h
    rw [collapseBlanks] at h
    by_cases hg : g.isEmpty
    · rw [if_pos hg] at h
      by_cases hb : b
      · rw [if_pos hb] at h
        rcases List.mem_cons.mp h with rfl | hm
        · exact Or.inl rfl
        · rcases ih false l hm with h1 | h2
          · exact Or.inl h1
          · exact Or.inr (List.mem_cons_of_mem _ h2)
      · rw [if_neg hb] at h
        rcases ih false l h with h1 | h2
        · exact Or.inl h1
        · exact Or.inr (List.mem_cons_of_mem _ h2)
    · rw [if_neg hg] at h
      rcases List.mem_cons.mp h with rfl | hm
      · exact Or.inr (List.mem_cons_self _ _)
      · rcases ih true l hm with h1 | h2
        · exact Or.inl h1
        · exact Or.inr (List.mem_cons_of_mem _ h2)

theorem stripCommentAux_subset :
    ∀ (l : List Char) (st : Bool) (q pv : Option Char),
      stripCommentAux l st q pv ⊆ l := by
  intro l
  induction l with
  | nil => intro st q pv; exact List.Subset.refl _
  | cons c cs ih =>
    intro st q pv x hx
    rw [stripCommentAux] at hx
    repeat' split at hx
    all_goals
      first
        | exact absurd hx (List.not_mem_nil _)
        | exact List.cons_subset_cons c (ih _ _ _) hx

theorem rstrip_subset (l : List Char) : rstrip l ⊆ l := by
  intro x hx
  rw [rstrip, List.mem_reverse] at hx
  have := (List.dropWhile_sublist (l := l.reverse) (p := isPyWs)).subset hx
  rwa [List.mem_reverse] at this

theorem processLine_subset (l : List Char) : processLine l ⊆ l :=
  fun _ hx => stripCommentAux_subset l false none none (rstrip_subset _ hx)

theorem normalizeLines_no_newline (s : List Char) :
    ∀ l ∈ normalizeLines s, '\n' ∉ l := by
  intro l hl
  rcases mem_collapseBlanks _ _ _ hl with rfl | hm
  · simp
  · obtain ⟨g, hg, rfl⟩ := List.mem_map.mp hm
    intro hnl
    exact splitNL_no_newline s g hg (processLine_subset g hnl)

theorem splitNL_normalizeSource (s : List Char)
    (h : normalizeLines s ≠ []) :
    splitNL (normalizeSource s) =
      (normalizeLines s).map collapseSpaces := by
  rw [normalizeSource, collapseSpaces_joinNL]
  apply splitNL_joinNL
  · simp [h]
  · intro l hl
    obtain ⟨g, hg, rfl⟩ := List.mem_map.mp hl
    intro hnl
    exact normalizeLines_no_newline s g hg (mem_collapseSpacesAux g false _ hnl)

theorem splitNL_replicate_newline :
    ∀ (n : Nat) (s : List Char),
      splitNL (List.replicate n '\n' ++ s) =
        List.replicate n [] ++ splitNL s := by
  intro n
  induction n with
  | zero => intro s; rfl
  | succ n ih =>
    intro s
    show splitNL ('\n' :: (List.replicate n '\n' ++ s)) = _
    rw [splitNL, if_pos rfl, ih]
    rfl

theorem collapseBlanks_replicate_nil :
    ∀ (n : Nat) (ls : List (List Char)),
      collapseBlanks false (List.replicate n [] ++ ls) =
        collapseBlanks false ls := by
  intro n
  induction n with
  | zero => intro ls; rfl
  | succ n ih =>
    intro ls
    show collapseBlanks false ([] :: (List.replicate n [] ++ ls)) = _
    exact ih ls

theorem normalizeLines_replicate_newline (n : Nat) (s : List Char) :
    normalizeLines (List.replicate n '\n' ++ s) = normalizeLines s := by
  rw [normalizeLines, splitNL_replicate_newline, List.map_append,
      List.map_replicate]
  show collapseBlanks false (List.replicate n [] ++ _) = _
  rw [collapseBlanks_replicate_nil]
  rfl


/-- C9: the normalized form produced by normalize_source never begins
with an empty line (when it is nonempty at all) and never contains two
consecutive empty lines; compute_ast_hash is invariant under prepending
any number of blank lines to the source. -/
theorem claim_C9_normalized_shape (s : String) :
    (normalizeSource s.data ≠ [] →
      (splitNL (normalizeSource s.data)).head? ≠ some [])
    ∧ List.Chain' (fun a b => ¬(a = [] ∧ b = []))
        (splitNL (normalizeSource s.data))
    ∧ (∀ n : Nat,
        compute_ast_hash (String.mk (List.replicate n '\n' ++ s.data)) =
          compute_ast_hash s) := by
  refine ⟨?_, ?_, ?_⟩
  · intro hne
    have hls : normalizeLines s.data ≠ [] := by
      intro h0
      apply hne
      rw [normalizeSource, h0]
      rfl
    rw [splitNL_normalizeSource s.data hls, List.head?_map]
    intro hcon
    obtain ⟨l, hl, hle⟩ := Option.map_eq_some'.mp hcon
    have hlnil : l = [] := (collapseSpaces_eq_nil_iff l).mp hle
    apply collapseBlanks_head_ne_nil ((splitNL s.data).map processLine)
    show (normalizeLines s.data).head? = some []
    rw [hl, hlnil]
  · by_cases hls : normalizeLines s.data = []
    · rw [normalizeSource, hls]
      show List.Chain' _ (splitNL [])
      rw [splitNL]
      exact List.chain'_singleton _
    · rw [splitNL_normalizeSource s.data hls, List.chain'_map]
      apply List.Chain'.imp ?_ (collapseBlanks_chain _ false)
      intro a b hab hcon
      exact hab ⟨(collapseSpaces_eq_nil_iff a).mp hcon.1,
                 (collapseSpaces_eq_nil_iff b).mp hcon.2⟩
  · intro n
    have hdata : (String.mk (List.replicate n '\n' ++ s.data)).data =
        List.replicate n '\n' ++ s.data := rfl
    have hnorm : normalizeSource (List.replicate n '\n' ++ s.data) =
        normalizeSource s.data := by
      rw [normalizeSource, normalizeSource, normalizeLines_replicate_newline]
    rw [compute_ast_hash, compute_ast_hash, hdata, hnorm]

theorem dropWhile_append_all (p : Char → Bool) :
    ∀ (u v : List Char), (∀ x ∈ u, p x = true) →
      List.dropWhile p (u ++ v) = List.dropWhile p v := by
  intro u v
  induction u with
  | nil => intro _; rfl
  | cons a u ih =>
    intro h
    show List.dropWhile p (a :: (u ++ v)) = _
    rw [List.dropWhile_cons, if_pos (h a (List.mem_cons_self _ _)),
        ih (fun x hx => h x (List.mem_cons_of_mem _ hx))]

theorem dropWhile_eq_nil_of_all (p : Char → Bool) (u : List Char)
    (h : ∀ x ∈ u, p x = true) : List.dropWhile p u = [] := by
  have := dropWhile_append_all p u [] h
  rwa [List.append_nil] at this

theorem stripCommentAux_all_ws :
    ∀ (ws : List Char), ws.all isPyWs = true →
      ∀ (st : Bool) (q pv : Option Char), stripCommentAux ws st q pv = ws := by
  intro ws
  induction ws with
  | nil => intro _ st q pv; rfl
  | cons c cs ih =>
    intro h st q pv
    have hc : isPyWs c = true := by
      rw [List.all_cons] at h
      exact (Bool.and_eq_true_iff.mp h).1
    have hcs : cs.all isPyWs = true := by
      rw [List.all_cons] at h
      exact (Bool.and_eq_true_iff.mp h).2
    have hc6 : c = ' ' ∨ c = '\t' ∨ c = '\n' ∨ c = '\r' ∨ c = '\x0b' ∨
        c = '\x0c' := by
      simp [isPyWs] at hc
      tauto
    have h1 : (c == '"' || c == '\'') = false := by
      rcases hc6 with rfl | rfl | rfl | rfl | rfl | rfl <;> rfl
    have h2 : (c == '#') = false := by
      rcases hc6 with rfl | rfl | rfl | rfl | rfl | rfl <;> rfl
    rw [stripCommentAux]
    simp only [h1, Bool.false_and, Bool.false_eq_true, if_false, h2,
      Bool.and_false, ih hcs]

theorem rstrip_all_ws (ws : List Char) (h : ws.all isPyWs = true) :
    rstrip ws = [] := by
  rw [rstrip, dropWhile_eq_nil_of_all]
  · rfl
  · intro x hx
    exact List.all_eq_true.mp h x (List.mem_reverse.mp hx)

theorem rstrip_append_ws (l ws : List Char) (h : ws.all isPyWs = true) :
    rstrip (l ++ ws) = rstrip l := by
  rw [rstrip, rstrip, List.reverse_append, dropWhile_append_all]
  intro x hx
  exact List.all_eq_true.mp h x (List.mem_reverse.mp hx)

theorem dropWhile_append_cases (p : Char → Bool) :
    ∀ (u v : List Char),
      List.dropWhile p (u ++ v) =
        if (List.dropWhile p u).isEmpty then List.dropWhile p v
        else List.dropWhile p u ++ v := by
  intro u v
  induction u with
  | nil => simp
  | cons a u ih =>
    show List.dropWhile p (a :: (u ++ v)) = _
    rw [List.dropWhile_cons, List.dropWhile_cons]
    by_cases ha : p a = true
    · rw [if_pos ha, if_pos ha, ih]
    · rw [if_neg ha, if_neg ha]
      simp

theorem rstrip_cons_congr (c : Char) (x y : List Char)
    (h : rstrip x = rstrip y) : rstrip (c :: x) = rstrip (c :: y) := by
  have hx : List.dropWhile isPyWs x.reverse = List.dropWhile isPyWs y.reverse := by
    have := congrArg List.reverse h
    rwa [rstrip, rstrip, List.reverse_reverse, List.reverse_reverse] at this
  rw [rstrip, rstrip, List.reverse_cons, List.reverse_cons,
      dropWhile_append_cases, dropWhile_append_cases, hx]

theorem rstrip_stripCommentAux_append_ws (ws : List Char)
    (hws : ws.all isPyWs = true) :
    ∀ (l : List Char) (st : Bool) (q pv : Option Char),
      rstrip (stripCommentAux (l ++ ws) st q pv) =
        rstrip (stripCommentAux l st q pv) := by
  intro l
  induction l with
  | nil =>
    intro st q pv
    show rstrip (stripCommentAux ws st q pv) = rstrip []
    rw [stripCommentAux_all_ws ws hws, rstrip_all_ws ws hws]
    rfl
  | cons c cs ih =>
    intro st q pv
    show rstrip (stripCommentAux (c :: (cs ++ ws)) st q pv) = _
    rw [stripCommentAux, stripCommentAux]
    repeat' split
    all_goals first
      | rfl
      | exact rstrip_cons_congr c _ _ (ih _ _ _)

theorem processLine_append_ws (l ws : List Char)
    (hws : ws.all isPyWs = true) :
    processLine (l ++ ws) = processLine l :=
  rstrip_stripCommentAux_append_ws ws hws l false none none

theorem map_processLine_forall₂ {xs ys : List (List Char)}
    (h : List.Forall₂
      (fun a b => ∃ ws, b = a ++ ws ∧ ws.all isPyWs = true) xs ys) :
    xs.map processLine = ys.map processLine := by
  induction h with
  | nil => rfl
  | cons hab htail ih =>
    obtain ⟨ws, rfl, hws⟩ := hab
    simp only [List.map_cons, ih]
    rw [processLine_append_ws _ _ hws]


/-- C9 witness: the shape facts and the prepend invariance evaluated on a
concrete source. -/
theorem claim_C9_normalized_shape_witness :
    (splitNL (normalizeSource ("a\n\nb").data)).head? ≠ some []
    ∧ compute_ast_hash
        (String.mk (List.replicate 2 '\n' ++ ("a\n\nb").data)) =
      compute_ast_hash ("a\n\nb") :=
  ⟨(claim_C9_normalized_shape ("a\n\nb")).1 (by decide),
   (claim_C9_normalized_shape ("a\n\nb")).2.2 2⟩

/-! ## Space-run and comment-append congruence lemmas (for C2) -/

theorem srr_empty_iff {a b : List Char} (h : SpaceRunRel a b) :
    a = [] ↔ b = [] := by
  induction h with
  | nil => simp
  | cons c hc h ih => simp
  | run m n hm hn h ih =>
    constructor <;> intro he <;> exfalso
    · cases m with
      | zero => omega
      | succ k => simp [List.replicate_succ] at he
    · cases n with
      | zero => omega
      | succ k => simp [List.replicate_succ] at he

theorem srr_refl : ∀ (l : List Char), SpaceRunRel l l := by
  intro l
  induction l with
  | nil => exact SpaceRunRel.nil
  | cons c cs ih =>
    by_cases hc : c = ' '
    · subst hc
      have := SpaceRunRel.run 1 1 (by omega) (by omega) ih
      simpa using this
    · exact SpaceRunRel.cons c hc ih

theorem srr_append {a b c d : List Char} (h1 : SpaceRunRel a b)
    (h2 : SpaceRunRel c d) : SpaceRunRel (a ++ c) (b ++ d) := by
  induction h1 with
  | nil => simpa using h2
  | cons e he h ih => exact SpaceRunRel.cons e he ih
  | run m n hm hn h ih =>
    rw [List.append_assoc, List.append_assoc]
    exact SpaceRunRel.run m n hm hn ih

theorem collapseSpacesAux_true_replicate (a : List Char) :
    ∀ m, collapseSpacesAux true (List.replicate m ' ' ++ a) =
      collapseSpacesAux true a := by
  intro m
  induction m with
  | zero => rfl
  | succ k ih =>
    show collapseSpacesAux true (' ' :: (List.replicate k ' ' ++ a)) = _
    rw [collapseSpacesAux, if_pos rfl, if_pos rfl, ih]

theorem collapseSpacesAux_srr {a b : List Char} (h : SpaceRunRel a b) :
    ∀ flag, collapseSpacesAux flag a = collapseSpacesAux flag b := by
  induction h with
  | nil => intro flag; rfl
  | cons c hc h ih =>
    intro flag
    rw [collapseSpacesAux, collapseSpacesAux, if_neg hc, if_neg hc, ih false]
  | run m n hm hn h ih =>
    intro flag
    obtain ⟨p, rfl⟩ : ∃ p, m = p + 1 := ⟨m - 1, by omega⟩
    obtain ⟨r, rfl⟩ : ∃ r, n = r + 1 := ⟨n - 1, by omega⟩
    cases flag with
    | true =>
      show collapseSpacesAux true (' ' :: (List.replicate p ' ' ++ _)) = _
      rw [collapseSpacesAux, if_pos rfl, if_pos rfl,
          collapseSpacesAux_true_replicate]
      show _ = collapseSpacesAux true (' ' :: (List.replicate r ' ' ++ _))
      rw [collapseSpacesAux, if_pos rfl, if_pos rfl,
          collapseSpacesAux_true_replicate, ih true]
    | false =>
      show collapseSpacesAux false (' ' :: (List.replicate p ' ' ++ _)) = _
      rw [collapseSpacesAux, if_pos rfl, if_neg (by simp),
          collapseSpacesAux_true_replicate]
      show _ = collapseSpacesAux false (' ' :: (List.replicate r ' ' ++ _))
      rw [collapseSpacesAux, if_pos rfl, if_neg (by simp),
          collapseSpacesAux_true_replicate, ih true]

theorem collapseSpaces_srr {a b : List Char} (h : SpaceRunRel a b) :
    collapseSpaces a = collapseSpaces b :=
  collapseSpacesAux_srr h false


theorem stripCommentAux_replicate_space (a : List Char) :
    ∀ (m : Nat) (st : Bool) (q pv : Option Char), 1 ≤ m →
      stripCommentAux (List.replicate m ' ' ++ a) st q pv =
        List.replicate m ' ' ++ stripCommentAux a st q (some ' ') := by
  intro m
  induction m with
  | zero => intro st q pv h; omega
  | succ k ih =>
    intro st q pv _
    have step : ∀ (l : List Char) (pv2 : Option Char),
        stripCommentAux (' ' :: l) st q pv2 =
          ' ' :: stripCommentAux l st q (some ' ') := by
      intro l pv2
      rw [stripCommentAux]
      simp only [show (' ' == '"' || ' ' == '\'') = false from rfl,
        Bool.false_and, Bool.false_eq_true, if_false,
        show (' ' == '#') = false from rfl, Bool.and_false]
    show stripCommentAux (' ' :: (List.replicate k ' ' ++ a)) st q pv = _
    rw [step]
    cases k with
    | zero => simp
    | succ j =>
      rw [ih st q (some ' ') (by omega)]
      rfl

theorem stripCommentAux_srr {a b : List Char} (h : SpaceRunRel a b) :
    ∀ (st : Bool) (q pv : Option Char),
      SpaceRunRel (stripCommentAux a st q pv) (stripCommentAux b st q pv) := by
  induction h with
  | nil => intro st q pv; exact SpaceRunRel.nil
  | cons c hc h ih =>
    intro st q pv
    rw [stripCommentAux, stripCommentAux]
    repeat' split
    all_goals first
      | exact SpaceRunRel.nil
      | exact SpaceRunRel.cons c hc (ih _ _ _)
  | run m n hm hn h ih =>
    intro st q pv
    rw [stripCommentAux_replicate_space _ m st q pv hm,
        stripCommentAux_replicate_space _ n st q pv hn]
    exact SpaceRunRel.run m n hm hn (ih st q (some ' '))

theorem rstrip_cons_of_nil (c : Char) (x : List Char) (h : rstrip x = []) :
    rstrip (c :: x) = rstrip [c] := by
  have hx : List.dropWhile isPyWs x.reverse = [] := by
    have := congrArg List.reverse h
    rwa [rstrip, List.reverse_reverse, List.reverse_nil] at this
  rw [rstrip, List.reverse_cons, dropWhile_append_cases, hx]
  simp [rstrip]

theorem rstrip_cons_of_ne (c : Char) (x : List Char) (h : rstrip x ≠ []) :
    rstrip (c :: x) = c :: rstrip x := by
  have hx : ¬(List.dropWhile isPyWs x.reverse).isEmpty = true := by
    intro hc
    apply h
    rw [rstrip, List.isEmpty_iff.mp hc, List.reverse_nil]
  rw [rstrip, List.reverse_cons, dropWhile_append_cases, if_neg hx,
      List.reverse_append]
  simp [rstrip]

theorem rstrip_replicate_append_of_nil (m : Nat) (x : List Char)
    (h : rstrip x = []) : rstrip (List.replicate m ' ' ++ x) = [] := by
  have hx : List.dropWhile isPyWs x.reverse = [] := by
    have := congrArg List.reverse h
    rwa [rstrip, List.reverse_reverse, List.reverse_nil] at this
  rw [rstrip, List.reverse_append, dropWhile_append_cases, hx]
  rw [if_pos (show (List.nil : List Char).isEmpty = true from rfl),
      dropWhile_eq_nil_of_all]
  · rfl
  · intro y hy
    rw [List.mem_reverse, List.mem_replicate] at hy
    rw [hy.2]
    rfl

theorem rstrip_replicate_append_of_ne (m : Nat) (x : List Char)
    (h : rstrip x ≠ []) :
    rstrip (List.replicate m ' ' ++ x) =
      List.replicate m ' ' ++ rstrip x := by
  have hx : ¬(List.dropWhile isPyWs x.reverse).isEmpty = true := by
    intro hc
    apply h
    rw [rstrip, List.isEmpty_iff.mp hc, List.reverse_nil]
  rw [rstrip, List.reverse_append, dropWhile_append_cases, if_neg hx,
      List.reverse_append, List.reverse_reverse, rstrip]

theorem rstrip_srr {x y : List Char} (h : SpaceRunRel x y) :
    SpaceRunRel (rstrip x) (rstrip y) := by
  induction h with
  | nil => exact SpaceRunRel.nil
  | cons c hc h ih =>
    rename_i a b
    by_cases hn : rstrip a = []
    · have hn2 : rstrip b = [] := (srr_empty_iff ih).mp hn
      rw [rstrip_cons_of_nil c a hn, rstrip_cons_of_nil c b hn2]
      exact srr_refl _
    · have hn2 : rstrip b ≠ [] := fun h2 => hn ((srr_empty_iff ih).mpr h2)
      rw [rstrip_cons_of_ne c a hn, rstrip_cons_of_ne c b hn2]
      exact SpaceRunRel.cons c hc ih
  | run m n hm hn h ih =>
    rename_i a b
    by_cases hx : rstrip a = []
    · have hx2 : rstrip b = [] := (srr_empty_iff ih).mp hx
      rw [rstrip_replicate_append_of_nil m a hx,
          rstrip_replicate_append_of_nil n b hx2]
      exact SpaceRunRel.nil
    · have hx2 : rstrip b ≠ [] := fun h2 => hx ((srr_empty_iff ih).mpr h2)
      rw [rstrip_replicate_append_of_ne m a hx,
          rstrip_replicate_append_of_ne n b hx2]
      exact SpaceRunRel.run m n hm hn ih

theorem processLine_srr {a b : List Char} (h : SpaceRunRel a b) :
    SpaceRunRel (processLine a) (processLine b) :=
  rstrip_srr (stripCommentAux_srr h false none none)


theorem collapseBlanks_srr :
    ∀ {ls ms : List (List Char)}, List.Forall₂ SpaceRunRel ls ms →
      ∀ flag, List.Forall₂ SpaceRunRel (collapseBlanks flag ls)
        (collapseBlanks flag ms) := by
  intro ls ms h
  induction h with
  | nil => intro flag; exact List.Forall₂.nil
  | cons hab htail ih =>
    rename_i a b ls2 ms2
    intro flag
    rw [collapseBlanks, collapseBlanks]
    by_cases ha : a = []
    · have hb : b = [] := (srr_empty_iff hab).mp ha
      subst ha
      subst hb
      simp only [List.isEmpty_nil, if_true]
      cases flag with
      | true =>
        simp only [if_true]
        exact List.Forall₂.cons SpaceRunRel.nil (ih false)
      | false =>
        simp only [Bool.false_eq_true, if_false]
        exact ih false
    · have hb : b ≠ [] := fun h2 => ha ((srr_empty_iff hab).mpr h2)
      have ha2 : ¬a.isEmpty = true := by simpa [List.isEmpty_iff] using ha
      have hb2 : ¬b.isEmpty = true := by simpa [List.isEmpty_iff] using hb
      rw [if_neg ha2, if_neg hb2]
      exact List.Forall₂.cons hab (ih true)

theorem joinNL_srr :
    ∀ {ls ms : List (List Char)}, List.Forall₂ SpaceRunRel ls ms →
      SpaceRunRel (joinNL ls) (joinNL ms) := by
  intro ls ms h
  induction h with
  | nil => exact SpaceRunRel.nil
  | cons hab htail ih =>
    cases htail with
    | nil => exact hab
    | cons h2 h3 =>
      rw [joinNL_cons_cons, joinNL_cons_cons]
      exact srr_append hab (SpaceRunRel.cons '\n' (by decide) ih)

theorem forall₂_map_processLine_srr {ls ms : List (List Char)}
    (h : List.Forall₂ SpaceRunRel ls ms) :
    List.Forall₂ SpaceRunRel (ls.map processLine) (ms.map processLine) := by
  induction h with
  | nil => exact List.Forall₂.nil
  | cons hab htail ih => exact List.Forall₂.cons (processLine_srr hab) ih

theorem collapseBlanks_double_blank :
    ∀ (xs : List (List Char)) (flag : Bool) (ys : List (List Char)),
      collapseBlanks flag (xs ++ [] :: [] :: ys) =
        collapseBlanks flag (xs ++ [] :: ys) := by
  intro xs
  induction xs with
  | nil =>
    intro flag ys
    cases flag with
    | true => rfl
    | false => rfl
  | cons x xs ih =>
    intro flag ys
    show collapseBlanks flag (x :: (xs ++ [] :: [] :: ys)) =
      collapseBlanks flag (x :: (xs ++ [] :: ys))
    rw [collapseBlanks, collapseBlanks]
    by_cases hx : x.isEmpty = true
    · rw [if_pos hx, if_pos hx, ih]
    · rw [if_neg hx, if_neg hx, ih]


theorem rstrip_stripCommentAux_append_comment (rest : List Char) :
    ∀ (l : List Char) (st : Bool) (q pv : Option Char),
      Option.all (fun s2 => !s2.1) (commentScanState l st q pv) = true →
      rstrip (stripCommentAux (l ++ ' ' :: '#' :: rest) st q pv) =
        rstrip (stripCommentAux l st q pv) := by
  intro l
  induction l with
  | nil =>
    intro st q pv h
    simp only [commentScanState, Option.all] at h
    have hst : st = false := by simpa using h
    subst hst
    show rstrip (stripCommentAux (' ' :: '#' :: rest) false q pv) = rstrip []
    rw [stripCommentAux]
    simp only [show (' ' == '"' || ' ' == '\'') = false from rfl,
      Bool.false_and, Bool.false_eq_true, if_false,
      show (' ' == '#') = false from rfl, Bool.and_false]
    rw [stripCommentAux]
    simp only [show ('#' == '"' || '#' == '\'') = false from rfl,
      Bool.false_and, Bool.false_eq_true, if_false]
    simp [rstrip, isPyWs]
  | cons c cs ih =>
    intro st q pv h
    rw [commentScanState] at h
    show rstrip (stripCommentAux (c :: (cs ++ ' ' :: '#' :: rest)) st q pv) = _
    rw [stripCommentAux, stripCommentAux]
    repeat' split
    all_goals first
      | rfl
      | exact rstrip_cons_congr c _ _ (ih _ _ _ (by simp_all))

theorem processLine_append_comment (l rest : List Char)
    (h : Option.all (fun s2 => !s2.1)
      (commentScanState l false none none) = true) :
    processLine (l ++ ' ' :: '#' :: rest) = processLine l :=
  rstrip_stripCommentAux_append_comment rest l false none none h

theorem map_processLine_forall₂_comment {xs ys : List (List Char)}
    (h : List.Forall₂ (fun a b => b = a ∨ ∃ rest,
        b = a ++ ' ' :: '#' :: rest ∧
        Option.all (fun s2 => !s2.1)
          (commentScanState a false none none) = true) xs ys) :
    xs.map processLine = ys.map processLine := by
  induction h with
  | nil => rfl
  | cons hab htail ih =>
    rcases hab with rfl | ⟨rest, rfl, hscan⟩
    · simp only [List.map_cons, ih]
    · simp only [List.map_cons, ih]
      rw [processLine_append_comment _ rest hscan]


/-- C2, amended: a cosmetic edit preserves compute_ast_hash exactly when
it preserves the normalized form. Proved fully generally: adding trailing
whitespace to any line; resizing any positive-length space run to another
positive length, which covers re-indentation between positive space
widths; appending an inline comment to a line whose quote scan does not
find a comment and does not end inside a string literal; and inserting a
blank or comment-only line whose processed form is blank adjacent to an
existing blank separator. Changing a single code token changes the hash
on the concrete witness, though not universally. The original claim fails
because a comment-only or blank line inserted between two code lines
survives normalization as a blank separator, because removing an
indentation entirely is not a space-run resize, and because token changes
inside string-literal space runs or behind an unterminated quote are
normalized away or kept verbatim (see the counterexample). -/
theorem claim_C2_corrected_hash_stability :
    (∀ s t : String,
      List.Forall₂ (fun a b => ∃ ws, b = a ++ ws ∧ ws.all isPyWs = true)
        (splitNL s.data) (splitNL t.data) →
      compute_ast_hash s = compute_ast_hash t)
    ∧ (∀ s t : String,
      List.Forall₂ SpaceRunRel (splitNL s.data) (splitNL t.data) →
      compute_ast_hash s = compute_ast_hash t)
    ∧ (∀ s t : String,
      List.Forall₂ (fun a b => b = a ∨ ∃ rest,
          b = a ++ ' ' :: '#' :: rest ∧
          Option.all (fun s2 => !s2.1)
            (commentScanState a false none none) = true)
        (splitNL s.data) (splitNL t.data) →
      compute_ast_hash s = compute_ast_hash t)
    ∧ (∀ (s t : String) (xs ys : List (List Char)),
      (splitNL s.data).map processLine = xs ++ [] :: ys →
      (splitNL t.data).map processLine = xs ++ [] :: [] :: ys →
      compute_ast_hash s = compute_ast_hash t)
    ∧ compute_ast_hash ("x = 1") ≠ compute_ast_hash ("x = 2") := by
  refine ⟨?_, ?_, ?_, ?_, by decide⟩
  · intro s t h
    have hm := map_processLine_forall₂ h
    rw [compute_ast_hash, compute_ast_hash, normalizeSource, normalizeSource,
        normalizeLines, normalizeLines, hm]
  · intro s t h
    have hn : normalizeSource s.data = normalizeSource t.data := by
      rw [normalizeSource, normalizeSource, normalizeLines, normalizeLines]
      exact collapseSpaces_srr
        (joinNL_srr (collapseBlanks_srr (forall₂_map_processLine_srr h) false))
    rw [compute_ast_hash, compute_ast_hash, hn]
  · intro s t h
    have hm := map_processLine_forall₂_comment h
    rw [compute_ast_hash, compute_ast_hash, normalizeSource, normalizeSource,
        normalizeLines, normalizeLines, hm]
  · intro s t xs ys hs ht
    have hn : normalizeLines s.data = normalizeLines t.data := by
      rw [normalizeLines, normalizeLines, hs, ht, collapseBlanks_double_blank]
    rw [compute_ast_hash, compute_ast_hash, normalizeSource, normalizeSource,
        hn]

/-- C2 witness: each general conjunct applied at concrete sources -
trailing whitespace on both lines, re-indentation from two to four
spaces, an inline comment appended to a code line, and a comment-only
line inserted next to an existing blank line. -/
theorem claim_C2_corrected_hash_stability_witness :
    compute_ast_hash ("a\nb") = compute_ast_hash ("a  \nb\t")
    ∧ compute_ast_hash ("if x:\n  y = 1") =
        compute_ast_hash ("if x:\n    y = 1")
    ∧ compute_ast_hash ("x = 1") = compute_ast_hash ("x = 1 # note")
    ∧ compute_ast_hash ("a\n\nb") = compute_ast_hash ("a\n\n# c\nb") :=
  ⟨(claim_C2_corrected_hash_stability).1 ("a\nb") ("a  \nb\t") (by
      show List.Forall₂ _ [['a'], ['b']] [['a', ' ', ' '], ['b', '\t']]
      exact List.Forall₂.cons ⟨[' ', ' '], rfl, by decide⟩
        (List.Forall₂.cons ⟨['\t'], rfl, by decide⟩ List.Forall₂.nil)),
   (claim_C2_corrected_hash_stability).2.1 ("if x:\n  y = 1")
     ("if x:\n    y = 1") (by
      show List.Forall₂ SpaceRunRel
        [['i', 'f', ' ', 'x', ':'], [' ', ' ', 'y', ' ', '=', ' ', '1']]
        [['i', 'f', ' ', 'x', ':'],
         [' ', ' ', ' ', ' ', 'y', ' ', '=', ' ', '1']]
      refine List.Forall₂.cons (srr_refl _)
        (List.Forall₂.cons ?_ List.Forall₂.nil)
      show SpaceRunRel (List.replicate 2 ' ' ++ ['y', ' ', '=', ' ', '1'])
        (List.replicate 4 ' ' ++ ['y', ' ', '=', ' ', '1'])
      exact SpaceRunRel.run 2 4 (by omega) (by omega) (srr_refl _)),
   (claim_C2_corrected_hash_stability).2.2.1 ("x = 1") ("x = 1 # note") (by
      show List.Forall₂ _ [['x', ' ', '=', ' ', '1']]
        [['x', ' ', '=', ' ', '1', ' ', '#', ' ', 'n', 'o', 't', 'e']]
      exact List.Forall₂.cons
        (Or.inr ⟨[' ', 'n', 'o', 't', 'e'], rfl, by decide⟩)
        List.Forall₂.nil),
   (claim_C2_corrected_hash_stability).2.2.2.1 ("a\n\nb") ("a\n\n# c\nb")
     [['a']] [['b']] (by decide) (by decide)⟩

/-- C2 counterexample: deleting the blank line between two code lines
changes the hash, inserting a comment-only line between two code lines
changes the hash, doubling a space inside a string literal (a code-token
change) does not change the hash, removing a single-space indentation
entirely changes the hash (so re-indentation only holds between positive
widths), and a hash character appended to a line whose quote scan ends
inside a string is kept verbatim and changes the hash (so the inline
comment rule needs the scan-state condition) - five concrete refutations
of the claim as stated. -/
theorem claim_C2_counterexample_cosmetic_edits :
    compute_ast_hash ("a\nb") ≠ compute_ast_hash ("a\n\nb")
    ∧ compute_ast_hash ("a\nb") ≠ compute_ast_hash ("a\n# c\nb")
    ∧ compute_ast_hash ("x = \"a b\"") = compute_ast_hash ("x = \"a  b\"")
    ∧ compute_ast_hash ("a\n b") ≠ compute_ast_hash ("a\nb")
    ∧ compute_ast_hash ("s = \"\"\"abc") ≠
        compute_ast_hash ("s = \"\"\"abc # note") :=
  ⟨by decide, by decide, by decide, by decide, by decide⟩

end CodeLod
